import Mathlib

/-!
Verification of the layer-splitting tool (split_gpt.py and split_new.py).

The source programs operate on an in-memory XML element tree
(xml.etree.ElementTree).  We embed that tree shallowly: an element is a
tag, an association list of attributes, and a list of child elements.
Python `attrib.get(k)` becomes an Option-valued lookup; a Python value that
is absent or None is `none`.  Deep copies are identities in this pure
embedding, and Python sets are represented as lists whose order is fixed
by the embedding (set iteration order is unspecified in the source, and
every property proved below is order-insensitive membership or pointwise
structure of the produced lists).
-/

inductive Elem where
  | mk (tag : String) (attrs : List (String × String)) (children : List Elem)

mutual

def elemDecEq : (a b : Elem) → Decidable (a = b)
  | .mk t1 a1 c1, .mk t2 a2 c2 =>
    match elemListDecEq c1 c2 with
    | isTrue hc =>
      if ht : t1 = t2 then
        if ha : a1 = a2 then isTrue (by rw [ht, ha, hc])
        else isFalse (fun h => by cases h; exact ha rfl)
      else isFalse (fun h => by cases h; exact ht rfl)
    | isFalse hc => isFalse (fun h => by cases h; exact hc rfl)

def elemListDecEq : (a b : List Elem) → Decidable (a = b)
  | [], [] => isTrue rfl
  | [], _ :: _ => isFalse (fun h => by cases h)
  | _ :: _, [] => isFalse (fun h => by cases h)
  | x :: xs, y :: ys =>
    match elemDecEq x y, elemListDecEq xs ys with
    | isTrue h1, isTrue h2 => isTrue (by rw [h1, h2])
    | isFalse h1, _ => isFalse (fun h => by cases h; exact h1 rfl)
    | _, isFalse h2 => isFalse (fun h => by cases h; exact h2 rfl)

end

instance : DecidableEq Elem := elemDecEq

def Elem.tag : Elem → String
  | .mk t _ _ => t

def Elem.attrs : Elem → List (String × String)
  | .mk _ a _ => a

def Elem.children : Elem → List Elem
  | .mk _ _ cs => cs

/-- Python `el.attrib.get(k)`: first binding of the key (XML attributes have
unique keys, so first and only). -/
def getAttr (e : Elem) (k : String) : Option String :=
  e.attrs.lookup k

/-- The id of an element if it is present and nonempty, mirroring the
Python truthiness test `if el_id:` used throughout the source. -/
def truthyId (e : Elem) : Option String :=
  match getAttr e "id" with
  | some s => if s = "" then none else some s
  | none => none

/-- Python dict assignment `elem.attrib[k] = v`, observed only through
`attrib.get`: the key now maps to `v`, all other keys are unchanged. -/
def setAttr (e : Elem) (k v : String) : Elem :=
  .mk e.tag ((k, v) :: e.attrs.filter (fun kv => kv.1 != k)) e.children

/-- Python dict assignment of the value None to a key, observed through
`attrib.get`: the lookup then yields none, exactly as if the key were
removed. -/
def removeAttr (e : Elem) (k : String) : Elem :=
  .mk e.tag (e.attrs.filter (fun kv => kv.1 != k)) e.children

mutual

/-- Python `element.iter()`: the element followed by all its descendants in
document (depth-first, preorder) order. -/
def iterList : Elem → List Elem
  | .mk t a cs => .mk t a cs :: iterLists cs

def iterLists : List Elem → List Elem
  | [] => []
  | c :: cs => iterList c ++ iterLists cs

end

/-- The descendants of an element, excluding the element itself: what the
ElementTree path prefix `.//` ranges over, in document order. -/
def descList (e : Elem) : List Elem :=
  iterLists e.children

/-- Python `element.find(tag)`: first direct child with the given tag. -/
def findChildTag (e : Elem) (t : String) : Option Elem :=
  e.children.find? (fun c => c.tag == t)

/-- Python `element.find(".//tag")`: first descendant with the given tag. -/
def findDescTag (e : Elem) (t : String) : Option Elem :=
  (descList e).find? (fun c => c.tag == t)

/-- Python `element.find(".//*[@id=v]")`: first descendant whose id attribute is
exactly `v`. -/
def findDescId (e : Elem) (v : String) : Option Elem :=
  (descList e).find? (fun c => getAttr c "id" == some v)

/-- All truthy ids occurring in the tree (document order, duplicates kept). -/
def truthyIds (t : Elem) : List String :=
  (iterList t).filterMap truthyId

/-! ## sanitize_filename (split_gpt.py lines 9-12)

`re.sub` with pattern `[^\w\-_\.]+` replaces every maximal run of
characters outside word-chars/hyphen/underscore/period by a single
underscore; `.strip("_")` then removes leading and trailing underscores.
The embedding models strings as `List Char` and the character class on the
ASCII fragment, where the Python regex class coincides with
alphanumeric-or-underscore plus hyphen and period. -/

/-- A character retained verbatim by the regex class `[^\w\-_\.]+` (ASCII
fragment: `\w` is alphanumeric or underscore). -/
def keepChar (c : Char) : Bool :=
  c.isAlphanum || c == '_' || c == '-' || c == '.'

/-- State machine for `re.sub(r"[^\w\-_\.]+", "_", s)`: the flag records
whether we are inside a run of replaced characters, so each maximal run
contributes exactly one underscore. -/
def subBadRuns : Bool → List Char → List Char
  | _, [] => []
  | inRun, c :: cs =>
    if keepChar c then c :: subBadRuns false cs
    else if inRun then subBadRuns true cs
    else '_' :: subBadRuns true cs

/-- Python `s.strip("_")`: drop leading and trailing underscores. -/
def stripUnderscore (l : List Char) : List Char :=
  ((l.dropWhile (fun c => c == '_')).reverse.dropWhile (fun c => c == '_')).reverse

def sanitize_filename (name : List Char) : List Char :=
  let name := if name = [] then "Unnamed_Layer".toList else name
  stripUnderscore (subBadRuns false name)

/-! ## Loader (split_gpt.py lines 14-32) -/

def _first_diagram (mxfileRoot : Elem) : Except String Elem :=
  match findChildTag mxfileRoot "diagram" with
  | some d => .ok d
  | none => .error "Kein diagram gefunden."

def _mxgraphmodel (diagram : Elem) : Except String Elem :=
  match findChildTag diagram "mxGraphModel" with
  | some m => .ok m
  | none =>
    match findDescTag diagram "mxGraphModel" with
    | some m => .ok m
    | none => .error "Kein mxGraphModel gefunden."

def _mxroot (mgm : Elem) : Except String Elem :=
  match findChildTag mgm "root" with
  | some r => .ok r
  | none => .error "Kein root unter mxGraphModel gefunden."

/-! ## Indexer (split_gpt.py lines 34-44)

`_build_indices` walks `mx_root.iter()` once; `id_index[el_id] = el`
overwrites, so a duplicated id maps to the last element carrying it;
`children[parent].append(el)` collects, per parent id, the children in
document order.  Both indices only see truthy (present, nonempty)
attribute values. -/

def idxStep (acc : String → Option Elem) (el : Elem) : String → Option Elem :=
  match truthyId el with
  | some i => fun j => if j = i then some el else acc j
  | none => acc

def _build_id_index (mxRoot : Elem) : String → Option Elem :=
  (iterList mxRoot).foldl idxStep (fun _ => none)

def _build_children (mxRoot : Elem) (p : String) : List Elem :=
  (iterList mxRoot).filter (fun el =>
    match getAttr el "parent" with
    | some q => !(q == "") && q == p
    | none => false)

/-- The keys of `id_index` in insertion order (first occurrence of each
truthy id). -/
def idxKeys (mxRoot : Elem) : List String :=
  (truthyIds mxRoot).dedup

/-! ## _top_layer_id (split_gpt.py lines 46-62)

The parent-chain walk carries a seen-set as cycle guard.  The loop is
modelled with explicit fuel; the outer `none` means the fuel ran out
before the loop returned, and the termination theorem shows that fuel
`(truthyIds t).length + 1` always suffices. -/

def _top_layer_id_aux (idx : String → Option Elem) :
    Nat → Elem → List String → Option (Option String)
  | 0, _, _ => none
  | fuel + 1, cur, seen =>
    match getAttr cur "parent" with
    | none => some none
    | some pid =>
      if pid = "" then some none
      else if pid = "0" then some (getAttr cur "id")
      else if pid ∈ seen then some none
      else
        match idx pid with
        | none => some none
        | some parentEl => _top_layer_id_aux idx fuel parentEl (pid :: seen)

def _top_layer_id (t : Elem) (el : Elem) : Option String :=
  (_top_layer_id_aux (_build_id_index t) ((truthyIds t).length + 1) el []).getD none

/-! ## _collect_cells_for_layer (split_gpt.py lines 64-79) and
_bfs_collect_subtree (split_new.py lines 73-90)

Both sources run the identical BFS: pop the queue head; if already in the
result set skip it, otherwise add it and enqueue the truthy ids of its
children.  Queue entries are `Option String` because the starting
`layer_id` comes from `attrib.get` and may be missing; `children.get` on a
missing key yields the empty list.  The loop is modelled with fuel, and
fuel adequacy is proved below. -/

def collectAux {α : Type} [DecidableEq α] (childIds : α → List α) :
    Nat → List α → List α → Option (List α)
  | _, result, [] => some result
  | 0, _, _ :: _ => none
  | fuel + 1, result, cur :: queue =>
    if cur ∈ result then collectAux childIds fuel result queue
    else collectAux childIds fuel (result ++ [cur]) (queue ++ childIds cur)

/-- Python `children.get(cur, [])` followed by the truthy-id push guard
`if cid: queue.append(cid)`. -/
def colChildIds (t : Elem) : Option String → List (Option String)
  | none => []
  | some p => (_build_children t p).filterMap (fun c => (truthyId c).map some)

/-- Fuel sufficient for the BFS, established by collectAux_isSome below. -/
def _collect_fuel (t : Elem) (startIds : List (Option String)) : Nat :=
  startIds.length + (startIds.length + (truthyIds t).length) * ((iterList t).length + 2) + 1

def _collect_cells_for_layer (t : Elem) (layerId : Option String) : List (Option String) :=
  (collectAux (colChildIds t) (_collect_fuel t [layerId]) [] [layerId]).getD []

def _bfs_collect_subtree (t : Elem) (startIds : List (Option String)) : List (Option String) :=
  (collectAux (colChildIds t) (_collect_fuel t startIds) [] startIds).getD []

/-! ## _add_base_cells (split_gpt.py lines 81-85) and
_copy_required_base_cells (split_new.py lines 63-71) -/

def _add_base_cells (mxRootSrc : Elem) : List Elem :=
  (findDescId mxRootSrc "0").toList ++ (findDescId mxRootSrc "1").toList

def _copy_required_base_cells (mxRootSrc : Elem) : List Elem :=
  (findDescId mxRootSrc "0").toList ++ (findDescId mxRootSrc "1").toList

/-! ## _relocate_parent (split_gpt.py lines 87-90) -/

def _relocate_parent (elem : Elem) (newParentId : Option String) : Elem :=
  match newParentId with
  | some p => setAttr elem "parent" p
  | none => removeAttr elem "parent"

/-! ## Cross-layer edge inclusion (split_gpt.py lines 108-123)

First every entry of `id_index` is scanned: an mxCell with edge="1" whose
truthy source or target id belongs to `in_layer_ids` is collected.  Then,
for each collected edge, the mxCell children of the edge (its labels) have
their ids added as well; `attrib.get("id")` of a label is added without a
truthiness check, so a missing id contributes a `none` entry that the copy
loop later skips. -/

def isCrossEdge (idx : String → Option Elem) (inLayerIds : List (Option String)) (i : String) : Bool :=
  match idx i with
  | none => false
  | some el =>
    el.tag == "mxCell" && getAttr el "edge" == some "1" &&
      ((match getAttr el "source" with
        | some s => !(s == "") && decide (some s ∈ inLayerIds)
        | none => false) ||
       (match getAttr el "target" with
        | some s => !(s == "") && decide (some s ∈ inLayerIds)
        | none => false))

def _cross_edge_direct (t : Elem) (inLayerIds : List (Option String)) : List String :=
  (idxKeys t).filter (isCrossEdge (_build_id_index t) inLayerIds)

def _cross_edge_ids (t : Elem) (inLayerIds : List (Option String)) : List (Option String) :=
  let direct := _cross_edge_direct t inLayerIds
  direct.map some ++
    direct.flatMap (fun edgeId =>
      ((_build_children t edgeId).filter (fun c => c.tag == "mxCell")).map
        (fun c => getAttr c "id"))

/-! ## The two copy loops of _export_layer (split_gpt.py lines 146-169)

Loop 1 copies every cell of the layer closure verbatim; loop 2 copies the
cross-layer edges and labels, rewriting the parent to the layer id when it
differs.  Both skip an id already in `added` and skip ids that do not
resolve in `id_index`; each performed copy records its id in `added`. -/

def _copy_layer_cells (idx : String → Option Elem) :
    List (Option String) → List String → List Elem × List String
  | [], added => ([], added)
  | none :: rest, added => _copy_layer_cells idx rest added
  | some i :: rest, added =>
    if i ∈ added then _copy_layer_cells idx rest added
    else
      match idx i with
      | none => _copy_layer_cells idx rest added
      | some el =>
        let p := _copy_layer_cells idx rest (added ++ [i])
        (el :: p.1, p.2)

def _copy_cross_edges (idx : String → Option Elem) (layerId : Option String) :
    List (Option String) → List String → List Elem × List String
  | [], added => ([], added)
  | none :: rest, added => _copy_cross_edges idx layerId rest added
  | some i :: rest, added =>
    if i ∈ added then _copy_cross_edges idx layerId rest added
    else
      match idx i with
      | none => _copy_cross_edges idx layerId rest added
      | some el =>
        let elCopy := if getAttr el "parent" ≠ layerId then _relocate_parent el layerId else el
        let p := _copy_cross_edges idx layerId rest (added ++ [i])
        (elCopy :: p.1, p.2)

/-! ## Assembly of one layer export (split_gpt.py lines 92-169)

The children of the fresh root container, in append order: the base cells,
the layer cell itself, the loop-1 copies, the loop-2 copies.  The `added`
set is initialised from `new_root.findall(".//*")` at the point after the
layer cell was appended, i.e. from all truthy ids occurring anywhere
inside the elements appended so far. -/

def _export_layer_cells (mxRootSrc : Elem) (layerElem : Elem) : List Elem :=
  let idx := _build_id_index mxRootSrc
  let layerId := getAttr layerElem "id"
  let inLayerIds := _collect_cells_for_layer mxRootSrc layerId
  let cross := _cross_edge_ids mxRootSrc inLayerIds
  let pre := _add_base_cells mxRootSrc ++ [layerElem]
  let added := (iterLists pre).filterMap truthyId
  let s1 := _copy_layer_cells idx inLayerIds added
  let s2 := _copy_cross_edges idx layerId cross s1.2
  pre ++ s1.1 ++ s2.1

/-- The label used for the diagram name and the file name:
`layer_elem.attrib.get("value") or "Unnamed_Layer"`. -/
def layerLabelOf (layerElem : Elem) : String :=
  match getAttr layerElem "value" with
  | some v => if v = "" then "Unnamed_Layer" else v
  | none => "Unnamed_Layer"

def _export_layer (mxfileRoot diagramSrc mgmSrc mxRootSrc layerElem : Elem) : Elem :=
  .mk "mxfile"
    [("host", (getAttr mxfileRoot "host").getD "app.diagrams.net"),
     ("agent", (getAttr mxfileRoot "agent").getD ""),
     ("version", (getAttr mxfileRoot "version").getD "28.0.7")]
    [.mk "diagram"
      [("name", layerLabelOf layerElem),
       ("id", (getAttr diagramSrc "id").getD "default_id")]
      [.mk "mxGraphModel" mgmSrc.attrs
        [.mk "root" [] (_export_layer_cells mxRootSrc layerElem)]]]

/-- Python `mx_root.findall(".//mxCell[@parent=0]")`: the layer cells. -/
def _layers (mxRoot : Elem) : List Elem :=
  (descList mxRoot).filter (fun e => e.tag == "mxCell" && getAttr e "parent" == some "0")

/-- export_layers (split_gpt.py lines 178-195), after the out-of-scope file
parse: locate diagram, graph model and root container (each a structural
error when absent), find the layers (an error when none), and produce one
output document per layer. -/
def export_layers (root : Elem) : Except String (List Elem) :=
  match _first_diagram root with
  | .error e => .error e
  | .ok diagramSrc =>
    match _mxgraphmodel diagramSrc with
    | .error e => .error e
    | .ok mgmSrc =>
      match _mxroot mgmSrc with
      | .error e => .error e
      | .ok mxRootSrc =>
        if _layers mxRootSrc = [] then
          Except.error "Keine Layer gefunden (mxCell mit parent=0)."
        else
          Except.ok ((_layers mxRootSrc).map (_export_layer root diagramSrc mgmSrc mxRootSrc))

/-! ## split_new.py: _export_single_layer (lines 92-144)

Identical scaffolding and closure, but a single copy loop with an extra
guard: an element is copied only when its parent id is in the closure set
or it is the layer cell itself.  There is no cross-layer edge step. -/

def _copy_cells_new (idx : String → Option Elem) (toCopyIds : List (Option String))
    (layerId : Option String) :
    List (Option String) → List String → List Elem × List String
  | [], added => ([], added)
  | none :: rest, added => _copy_cells_new idx toCopyIds layerId rest added
  | some i :: rest, added =>
    if i ∈ added then _copy_cells_new idx toCopyIds layerId rest added
    else
      match idx i with
      | none => _copy_cells_new idx toCopyIds layerId rest added
      | some el =>
        if getAttr el "parent" ∈ toCopyIds ∨ some i = layerId then
          let p := _copy_cells_new idx toCopyIds layerId rest (added ++ [i])
          (el :: p.1, p.2)
        else _copy_cells_new idx toCopyIds layerId rest added

def _export_single_layer_cells (mxRootSrc : Elem) (layerElem : Elem) : List Elem :=
  let idx := _build_id_index mxRootSrc
  let layerId := getAttr layerElem "id"
  let pre := _copy_required_base_cells mxRootSrc ++ [layerElem]
  let toCopyIds := _bfs_collect_subtree mxRootSrc [layerId]
  let added := (iterLists pre).filterMap truthyId
  let s := _copy_cells_new idx toCopyIds layerId toCopyIds added
  pre ++ s.1

/-! ## The ancestor-chain relation used to state closure completeness.

`UpReach idx L i` holds when the chain of parent references starting at id
`i` and resolved through the id index reaches the layer id `L`. -/

inductive UpReach (idx : String → Option Elem) (L : String) : String → Prop
  | base : UpReach idx L L
  | step (i p : String) (e : Elem) :
      idx i = some e → getAttr e "parent" = some p → p ≠ "" →
      UpReach idx L p → UpReach idx L i

/-! ## Concrete documents

Small input documents used to instantiate the theorems below.  `exDoc`
is the minimal well-formed document (scaffolding cells 0 and 1 only);
`exRoot2` realises the example scenario of the specification, with two
layers, a group, and an edge crossing from layer LA to layer LB;
`exRoot3` carries a duplicated id; `exRoot4` carries a duplicated id whose
two bearers live under different parents. -/

def cell0 : Elem := .mk "mxCell" [("id", "0")] []

def cell1 : Elem := .mk "mxCell" [("id", "1"), ("parent", "0")] []

def exRoot1 : Elem := .mk "root" [] [cell0, cell1]

def exMgm1 : Elem := .mk "mxGraphModel" [("dx", "100")] [exRoot1]

def exDiagram1 : Elem := .mk "diagram" [("name", "Page-1"), ("id", "d1")] [exMgm1]

def exDoc : Elem := .mk "mxfile" [("host", "test")] [exDiagram1]

def layerA : Elem := .mk "mxCell" [("id", "LA"), ("parent", "0"), ("value", "Network")] []

def layerB : Elem := .mk "mxCell" [("id", "LB"), ("parent", "0"), ("value", "Security")] []

def groupG : Elem := .mk "mxCell" [("id", "G"), ("parent", "LA")] []

def nodeN1 : Elem := .mk "mxCell" [("id", "N1"), ("parent", "G")] []

def nodeN2 : Elem := .mk "mxCell" [("id", "N2"), ("parent", "LB")] []

def edgeE : Elem :=
  .mk "mxCell"
    [("id", "E"), ("parent", "G"), ("edge", "1"), ("source", "N1"), ("target", "N2")] []

def exRoot2 : Elem := .mk "root" [] [cell0, cell1, layerA, layerB, groupG, nodeN1, nodeN2, edgeE]

def dupCell : Elem := .mk "mxCell" [("id", "1"), ("parent", "0"), ("value", "dup")] []

def exRoot3 : Elem := .mk "root" [] [cell0, cell1, dupCell]

def layerL : Elem := .mk "mxCell" [("id", "L"), ("parent", "0"), ("value", "Main")] []

def cellX1 : Elem := .mk "mxCell" [("id", "X"), ("parent", "L")] []

def cellX2 : Elem := .mk "mxCell" [("id", "X"), ("parent", "Q")] []

def exRoot4 : Elem := .mk "root" [] [cell0, cell1, layerL, cellX1, cellX2]

/-- An element carrying the (nonempty) id `i` occurs, at any depth, among
the given root-container children: the sense in which an identifier
appears in an output document. -/
def idAppearsIn (cells : List Elem) (i : String) : Prop :=
  ∃ e ∈ iterLists cells, truthyId e = some i

instance (cells : List Elem) (i : String) : Decidable (idAppearsIn cells i) := by
  unfold idAppearsIn
  infer_instance

/-! # Helper lemmas -/

theorem attrs_mk (t : String) (a : List (String × String)) (c : List Elem) :
    (Elem.mk t a c).attrs = a := rfl

theorem children_mk (t : String) (a : List (String × String)) (c : List Elem) :
    (Elem.mk t a c).children = c := rfl

theorem tag_mk (t : String) (a : List (String × String)) (c : List Elem) :
    (Elem.mk t a c).tag = t := rfl

theorem iterList_def (e : Elem) : iterList e = e :: iterLists e.children := by
  cases e
  rfl

theorem iterLists_cons (c : Elem) (cs : List Elem) :
    iterLists (c :: cs) = iterList c ++ iterLists cs := rfl

theorem iterLists_append (l1 l2 : List Elem) :
    iterLists (l1 ++ l2) = iterLists l1 ++ iterLists l2 := by
  induction l1 with
  | nil => rfl
  | cons c cs ih =>
    simp only [List.cons_append, iterLists_cons, ih, List.append_assoc]

theorem self_mem_iterList (e : Elem) : e ∈ iterList e := by
  rw [iterList_def]
  exact List.mem_cons_self e _

theorem mem_iterLists_of_mem {c : Elem} {l : List Elem} (h : c ∈ l)
    {x : Elem} (hx : x ∈ iterList c) : x ∈ iterLists l := by
  induction l with
  | nil => cases h
  | cons d ds ih =>
    rw [iterLists_cons, List.mem_append]
    rcases List.mem_cons.mp h with rfl | hmem
    · exact Or.inl hx
    · exact Or.inr (ih hmem)

theorem self_mem_iterLists {c : Elem} {l : List Elem} (h : c ∈ l) : c ∈ iterLists l :=
  mem_iterLists_of_mem h (self_mem_iterList c)

theorem lookup_filter_ne (l : List (String × String)) (k j : String) (h : j ≠ k) :
    (l.filter (fun kv => kv.1 != k)).lookup j = l.lookup j := by
  induction l with
  | nil => rfl
  | cons kv l ih =>
    rw [List.filter_cons]
    by_cases hk : kv.1 = k
    · have h1 : (kv.1 != k) = false := by
        rw [bne_eq_false_iff_eq]
        exact hk
      have h2 : (j == kv.1) = false := by
        rw [beq_eq_false_iff_ne, hk]
        exact h
      rw [h1, if_neg (by decide)]
      rcases kv with ⟨a, b⟩
      rw [List.lookup_cons]
      rw [show (a, b).1 = a from rfl] at h2
      rw [h2, ih]
    · have h1 : (kv.1 != k) = true := by
        rw [bne_iff_ne]
        exact hk
      rw [h1, if_pos rfl]
      rcases kv with ⟨a, b⟩
      rw [List.lookup_cons, List.lookup_cons]
      cases hja : j == a
      · rw [ih]
      · rfl

theorem lookup_filter_self (l : List (String × String)) (k : String) :
    (l.filter (fun kv => kv.1 != k)).lookup k = none := by
  induction l with
  | nil => rfl
  | cons kv l ih =>
    rw [List.filter_cons]
    by_cases hk : kv.1 = k
    · have h1 : (kv.1 != k) = false := by
        rw [bne_eq_false_iff_eq]
        exact hk
      rw [h1, if_neg (by decide)]
      exact ih
    · have h1 : (kv.1 != k) = true := by
        rw [bne_iff_ne]
        exact hk
      rw [h1, if_pos rfl]
      rcases kv with ⟨a, b⟩
      have h2 : (k == a) = false := by
        rw [beq_eq_false_iff_ne]
        rw [show (a, b).1 = a from rfl] at hk
        exact fun he => hk he.symm
      rw [List.lookup_cons, h2]
      exact ih

theorem getAttr_setAttr_same (e : Elem) (k v : String) :
    getAttr (setAttr e k v) k = some v := by
  simp [getAttr, setAttr, attrs_mk]

theorem getAttr_setAttr_other (e : Elem) (k v j : String) (h : j ≠ k) :
    getAttr (setAttr e k v) j = getAttr e j := by
  have hj : (j == k) = false := by
    simp
    exact h
  simp [getAttr, setAttr, attrs_mk, List.lookup, hj, lookup_filter_ne _ _ _ h]

theorem getAttr_removeAttr_self (e : Elem) (k : String) :
    getAttr (removeAttr e k) k = none := by
  simp [getAttr, removeAttr, attrs_mk, lookup_filter_self]

theorem getAttr_removeAttr_other (e : Elem) (k j : String) (h : j ≠ k) :
    getAttr (removeAttr e k) j = getAttr e j := by
  simp [getAttr, removeAttr, attrs_mk, lookup_filter_ne _ _ _ h]

theorem relocate_parent_attr (el : Elem) (lid : Option String) :
    getAttr (_relocate_parent el lid) "parent" = lid := by
  cases lid with
  | none => exact getAttr_removeAttr_self el "parent"
  | some p => exact getAttr_setAttr_same el "parent" p

theorem relocate_id_attr (el : Elem) (lid : Option String) :
    getAttr (_relocate_parent el lid) "id" = getAttr el "id" := by
  cases lid with
  | none => exact getAttr_removeAttr_other el "parent" "id" (by decide)
  | some p => exact getAttr_setAttr_other el "parent" p "id" (by decide)

theorem truthyId_relocate (el : Elem) (lid : Option String) :
    truthyId (_relocate_parent el lid) = truthyId el := by
  simp [truthyId, relocate_id_attr]

theorem truthyId_some {e : Elem} {i : String} (h : truthyId e = some i) :
    getAttr e "id" = some i ∧ i ≠ "" := by
  unfold truthyId at h
  rcases hg : getAttr e "id" with _ | s
  · rw [hg] at h
    cases h
  · rw [hg] at h
    by_cases hs : s = ""
    · simp [hs] at h
    · simp [hs] at h
      exact ⟨by rw [h], by rw [← h]; exact hs⟩

/-! ### The id index: last-seen-wins -/

theorem foldl_idxStep_spec (l : List Elem) (acc : String → Option Elem) (i : String) :
    (l.foldl idxStep acc) i =
      (l.reverse.find? (fun e => truthyId e == some i)).or (acc i) := by
  induction l generalizing acc with
  | nil => rfl
  | cons e l ih =>
    rw [List.foldl_cons, ih, List.reverse_cons, List.find?_append, Option.or_assoc]
    congr 1
    have hsing : ∀ (p : Elem → Bool) (a : Elem),
        List.find? p [a] = if p a = true then some a else none := by
      intro p a
      by_cases h : p a = true
      · rw [List.find?_cons_of_pos _ h, if_pos h]
      · rw [List.find?_cons_of_neg _ h, List.find?_nil, if_neg h]
    rw [hsing]
    show idxStep acc e i = (if (truthyId e == some i) = true then some e else none).or (acc i)
    rcases ht : truthyId e with _ | j
    · have hb : (none == some i) = false := rfl
      rw [hb, if_neg (by decide), Option.none_or]
      simp only [idxStep, ht]
    · by_cases hij : i = j
      · subst hij
        rw [if_pos (beq_self_eq_true (some i)), Option.or_some]
        simp only [idxStep, ht]
        rfl
      · have hb : (some j == some i) = false := by
          rw [beq_eq_false_iff_ne]
          intro hc
          exact hij (Option.some.inj hc).symm
        rw [hb, if_neg (by decide), Option.none_or]
        simp only [idxStep, ht]
        rw [if_neg hij]

theorem idx_spec (t : Elem) (i : String) :
    _build_id_index t i = (iterList t).reverse.find? (fun e => truthyId e == some i) := by
  rw [_build_id_index, foldl_idxStep_spec]
  exact Option.or_none

theorem idx_some {t : Elem} {i : String} {e : Elem} (h : _build_id_index t i = some e) :
    e ∈ iterList t ∧ truthyId e = some i := by
  rw [idx_spec] at h
  refine ⟨List.mem_reverse.mp (List.mem_of_find?_eq_some h), ?_⟩
  have := List.find?_some h
  exact eq_of_beq this

theorem idx_isSome_of_mem {t : Elem} {e : Elem} {i : String}
    (he : e ∈ iterList t) (hi : truthyId e = some i) :
    ∃ el, _build_id_index t i = some el := by
  rw [idx_spec]
  have : ((iterList t).reverse.find? (fun e => truthyId e == some i)).isSome := by
    rw [List.find?_isSome]
    exact ⟨e, List.mem_reverse.mpr he, by rw [hi]; exact beq_self_eq_true _⟩
  exact Option.isSome_iff_exists.mp this

theorem mem_truthyIds_of_mem {t : Elem} {e : Elem} {i : String}
    (he : e ∈ iterList t) (hi : truthyId e = some i) : i ∈ truthyIds t := by
  rw [truthyIds, List.mem_filterMap]
  exact ⟨e, he, hi⟩

theorem mem_idxKeys_of_mem {t : Elem} {e : Elem} {i : String}
    (he : e ∈ iterList t) (hi : truthyId e = some i) : i ∈ idxKeys t := by
  rw [idxKeys, List.mem_dedup]
  exact mem_truthyIds_of_mem he hi

/-! ### The children index -/

theorem mem_build_children_iff (t : Elem) (p : String) (c : Elem) :
    c ∈ _build_children t p ↔
      c ∈ iterList t ∧ getAttr c "parent" = some p ∧ p ≠ "" := by
  rw [_build_children, List.mem_filter]
  constructor
  · rintro ⟨hmem, hcond⟩
    rcases hq : getAttr c "parent" with _ | q
    · rw [hq] at hcond
      cases hcond
    · rw [hq] at hcond
      have hand := Bool.and_eq_true_iff.mp hcond
      have hq1 : ¬(q == "") = true := by
        intro hc
        rw [hc] at hand
        cases hand.1
      have hq2 : q = p := eq_of_beq hand.2
      subst hq2
      refine ⟨hmem, rfl, ?_⟩
      intro hc
      exact hq1 (by rw [hc]; rfl)
  · rintro ⟨hmem, hpar, hne⟩
    refine ⟨hmem, ?_⟩
    rw [hpar]
    show (!(p == "") && (p == p)) = true
    have h1 : (p == "") = false := by
      rw [beq_eq_false_iff_ne]
      exact hne
    rw [h1, beq_self_eq_true]
    rfl

theorem mem_colChildIds_iff (t : Elem) (p : String) (y : Option String) :
    y ∈ colChildIds t (some p) ↔
      ∃ c ∈ _build_children t p, ∃ i, truthyId c = some i ∧ y = some i := by
  rw [colChildIds, List.mem_filterMap]
  constructor
  · rintro ⟨c, hc, hf⟩
    rcases ht : truthyId c with _ | i
    · rw [ht] at hf
      cases hf
    · rw [ht] at hf
      exact ⟨c, hc, i, ht, (Option.some.inj hf).symm⟩
  · rintro ⟨c, hc, i, hi, rfl⟩
    refine ⟨c, hc, ?_⟩
    show Option.map some (truthyId c) = some (some i)
    rw [hi]
    rfl

theorem colChildIds_sub (t : Elem) (x y : Option String) (hy : y ∈ colChildIds t x) :
    ∃ i, y = some i ∧ i ∈ truthyIds t := by
  cases x with
  | none => cases hy
  | some p =>
    rw [mem_colChildIds_iff] at hy
    obtain ⟨c, hc, i, hi, rfl⟩ := hy
    have hmem := ((mem_build_children_iff t p c).mp hc).1
    exact ⟨i, rfl, mem_truthyIds_of_mem hmem hi⟩

/-! ### The BFS loop: equations, soundness, termination -/

theorem collectAux_nil {α : Type} [DecidableEq α] (ch : α → List α) (fuel : Nat) (res : List α) :
    collectAux ch fuel res [] = some res := by
  cases fuel <;> rfl

theorem collectAux_zero {α : Type} [DecidableEq α] (ch : α → List α) (res : List α)
    (c : α) (q : List α) :
    collectAux ch 0 res (c :: q) = none := rfl

theorem collectAux_succ {α : Type} [DecidableEq α] (ch : α → List α) (fuel : Nat) (res : List α)
    (c : α) (q : List α) :
    collectAux ch (fuel + 1) res (c :: q) =
      if c ∈ res then collectAux ch fuel res q
      else collectAux ch fuel (res ++ [c]) (q ++ ch c) := rfl

theorem collectAux_sub {α : Type} [DecidableEq α] (ch : α → List α) :
    ∀ (fuel : Nat) (res queue R : List α), collectAux ch fuel res queue = some R →
      (∀ x ∈ res, x ∈ R) ∧ (∀ x ∈ queue, x ∈ R) := by
  intro fuel
  induction fuel with
  | zero =>
    intro res queue R h
    cases queue with
    | nil =>
      rw [collectAux_nil] at h
      cases h
      exact ⟨fun x hx => hx, fun x hx => (List.not_mem_nil x hx).elim⟩
    | cons c q =>
      rw [collectAux_zero] at h
      cases h
  | succ n ih =>
    intro res queue R h
    cases queue with
    | nil =>
      rw [collectAux_nil] at h
      cases h
      exact ⟨fun x hx => hx, fun x hx => (List.not_mem_nil x hx).elim⟩
    | cons c q =>
      rw [collectAux_succ] at h
      by_cases hc : c ∈ res
      · rw [if_pos hc] at h
        obtain ⟨h1, h2⟩ := ih res q R h
        refine ⟨h1, ?_⟩
        intro x hx
        rcases List.mem_cons.mp hx with rfl | hx
        · exact h1 x hc
        · exact h2 x hx
      · rw [if_neg hc] at h
        obtain ⟨h1, h2⟩ := ih _ _ _ h
        constructor
        · intro x hx
          exact h1 x (List.mem_append_left _ hx)
        · intro x hx
          rcases List.mem_cons.mp hx with rfl | hx
          · exact h1 x (List.mem_append_right _ (List.mem_singleton_self x))
          · exact h2 x (List.mem_append_left _ hx)

theorem collectAux_closed {α : Type} [DecidableEq α] (ch : α → List α) :
    ∀ (fuel : Nat) (res queue R : List α), collectAux ch fuel res queue = some R →
      ∀ x ∈ R, x ∈ res ∨ ∀ y ∈ ch x, y ∈ R := by
  intro fuel
  induction fuel with
  | zero =>
    intro res queue R h x hx
    cases queue with
    | nil =>
      rw [collectAux_nil] at h
      cases h
      exact Or.inl hx
    | cons c q =>
      rw [collectAux_zero] at h
      cases h
  | succ n ih =>
    intro res queue R h x hx
    cases queue with
    | nil =>
      rw [collectAux_nil] at h
      cases h
      exact Or.inl hx
    | cons c q =>
      rw [collectAux_succ] at h
      by_cases hc : c ∈ res
      · rw [if_pos hc] at h
        exact ih _ _ _ h x hx
      · rw [if_neg hc] at h
        rcases ih _ _ _ h x hx with hr | hcl
        · rcases List.mem_append.mp hr with hr | hr
          · exact Or.inl hr
          · have hxc : x = c := List.mem_singleton.mp hr
            subst hxc
            right
            intro y hy
            exact (collectAux_sub ch _ _ _ _ h).2 y (List.mem_append_right _ hy)
        · exact Or.inr hcl

theorem collectAux_origin {α : Type} [DecidableEq α] (ch : α → List α) :
    ∀ (fuel : Nat) (res queue R : List α), collectAux ch fuel res queue = some R →
      ∀ x ∈ R, x ∈ res ∨ x ∈ queue ∨ ∃ z ∈ R, x ∈ ch z := by
  intro fuel
  induction fuel with
  | zero =>
    intro res queue R h x hx
    cases queue with
    | nil =>
      rw [collectAux_nil] at h
      cases h
      exact Or.inl hx
    | cons c q =>
      rw [collectAux_zero] at h
      cases h
  | succ n ih =>
    intro res queue R h x hx
    cases queue with
    | nil =>
      rw [collectAux_nil] at h
      cases h
      exact Or.inl hx
    | cons c q =>
      rw [collectAux_succ] at h
      by_cases hc : c ∈ res
      · rw [if_pos hc] at h
        rcases ih _ _ _ h x hx with h1 | h2 | h3
        · exact Or.inl h1
        · exact Or.inr (Or.inl (List.mem_cons_of_mem _ h2))
        · exact Or.inr (Or.inr h3)
      · rw [if_neg hc] at h
        rcases ih _ _ _ h x hx with h1 | h2 | h3
        · rcases List.mem_append.mp h1 with h1 | h1
          · exact Or.inl h1
          · exact Or.inr (Or.inl (List.mem_cons.mpr (Or.inl (List.mem_singleton.mp h1))))
        · rcases List.mem_append.mp h2 with h2 | h2
          · exact Or.inr (Or.inl (List.mem_cons_of_mem _ h2))
          · refine Or.inr (Or.inr ⟨c, ?_, h2⟩)
            exact (collectAux_sub ch _ _ _ _ h).1 c
              (List.mem_append_right _ (List.mem_singleton_self c))
        · exact Or.inr (Or.inr h3)

theorem length_filter_mono {α : Type} (U : List α) (p q : α → Bool)
    (h : ∀ x, q x = true → p x = true) :
    (U.filter q).length ≤ (U.filter p).length := by
  induction U with
  | nil => exact Nat.le_refl 0
  | cons a U ih =>
    rw [List.filter_cons, List.filter_cons]
    by_cases hq : q a = true
    · rw [if_pos hq, if_pos (h a hq), List.length_cons, List.length_cons]
      exact Nat.succ_le_succ ih
    · rw [if_neg hq]
      by_cases hp : p a = true
      · rw [if_pos hp, List.length_cons]
        exact Nat.le_succ_of_le ih
      · rw [if_neg hp]
        exact ih

theorem length_filter_lt {α : Type} (U : List α) (p q : α → Bool) (c : α)
    (h : ∀ x, q x = true → p x = true) (hc : c ∈ U) (hpc : p c = true) (hqc : q c = false) :
    (U.filter q).length < (U.filter p).length := by
  induction U with
  | nil => cases hc
  | cons a U ih =>
    rw [List.filter_cons, List.filter_cons]
    rcases List.mem_cons.mp hc with rfl | hmem
    · have hnq : ¬(q c = true) := by
        rw [hqc]
        decide
      rw [if_pos hpc, if_neg hnq, List.length_cons]
      exact Nat.lt_succ_of_le (length_filter_mono U p q h)
    · by_cases hq : q a = true
      · rw [if_pos hq, if_pos (h a hq), List.length_cons, List.length_cons]
        exact Nat.succ_lt_succ (ih hmem)
      · rw [if_neg hq]
        by_cases hp : p a = true
        · rw [if_pos hp, List.length_cons]
          exact Nat.lt_succ_of_lt (ih hmem)
        · rw [if_neg hp]
          exact ih hmem

theorem collectAux_isSome {α : Type} [DecidableEq α] (ch : α → List α) (U : List α) (K : Nat)
    (hK : ∀ x, (ch x).length ≤ K)
    (hU : ∀ x, ∀ y ∈ ch x, y ∈ U) :
    ∀ (fuel : Nat) (res queue : List α), (∀ x ∈ queue, x ∈ U) →
      queue.length + (U.filter (fun x => decide (x ∉ res))).length * (K + 2) < fuel →
      (collectAux ch fuel res queue).isSome := by
  intro fuel
  induction fuel with
  | zero =>
    intro res queue hq hm
    exact absurd hm (Nat.not_lt_zero _)
  | succ n ih =>
    intro res queue hq hm
    cases queue with
    | nil =>
      rw [collectAux_nil]
      rfl
    | cons c q =>
      rw [collectAux_succ]
      by_cases hc : c ∈ res
      · rw [if_pos hc]
        apply ih res q (fun x hx => hq x (List.mem_cons_of_mem _ hx))
        rw [List.length_cons] at hm
        omega
      · rw [if_neg hc]
        apply ih (res ++ [c]) (q ++ ch c)
        · intro x hx
          rcases List.mem_append.mp hx with hx | hx
          · exact hq x (List.mem_cons_of_mem _ hx)
          · exact hU c x hx
        · have hcU : c ∈ U := hq c (List.mem_cons_self _ _)
          have hlt : (U.filter (fun x => decide (x ∉ res ++ [c]))).length <
              (U.filter (fun x => decide (x ∉ res))).length := by
            apply length_filter_lt U _ _ c
            · intro x hx
              simp only [decide_eq_true_eq] at hx
              simp only [decide_eq_true_eq]
              intro hmem
              exact hx (List.mem_append_left _ hmem)
            · exact hcU
            · simp only [decide_eq_true_eq]
              exact hc
            · simp only [decide_eq_false_iff_not]
              intro hcon
              exact hcon (List.mem_append_right _ (List.mem_singleton_self c))
          have hlen : (ch c).length ≤ K := hK c
          have h1 : (U.filter (fun x => decide (x ∉ res ++ [c]))).length + 1 ≤
              (U.filter (fun x => decide (x ∉ res))).length := hlt
          have hmul := Nat.mul_le_mul_right (K + 2) h1
          rw [Nat.succ_mul] at hmul
          rw [List.length_cons] at hm
          rw [List.length_append]
          omega

theorem bfs_collect_spec (t : Elem) (s : List (Option String)) :
    collectAux (colChildIds t) (_collect_fuel t s) [] s = some (_bfs_collect_subtree t s) := by
  have hsome : (collectAux (colChildIds t) (_collect_fuel t s) [] s).isSome := by
    apply collectAux_isSome (colChildIds t) (s ++ (truthyIds t).map some) ((iterList t).length)
    · intro x
      cases x with
      | none =>
        rw [show colChildIds t none = [] from rfl]
        exact Nat.zero_le _
      | some p =>
        calc ((_build_children t p).filterMap (fun c => (truthyId c).map some)).length
            ≤ (_build_children t p).length := List.length_filterMap_le _ _
          _ ≤ (iterList t).length := List.length_filter_le _ _
    · intro x y hy
      obtain ⟨i, rfl, hi⟩ := colChildIds_sub t x y hy
      exact List.mem_append_right _ (List.mem_map_of_mem some hi)
    · intro x hx
      exact List.mem_append_left _ hx
    · have hall : ∀ x ∈ s ++ (truthyIds t).map some,
          (fun x => decide (x ∉ ([] : List (Option String)))) x = true := by
        intro x _
        simp
      rw [List.filter_eq_self.mpr hall, List.length_append, List.length_map, _collect_fuel]
      omega
  obtain ⟨R, hR⟩ := Option.isSome_iff_exists.mp hsome
  rw [hR, _bfs_collect_subtree, hR]
  rfl

theorem collect_layer_spec (t : Elem) (lid : Option String) :
    collectAux (colChildIds t) (_collect_fuel t [lid]) [] [lid] =
      some (_collect_cells_for_layer t lid) :=
  bfs_collect_spec t [lid]

theorem collect_layer_start_mem (t : Elem) (lid : Option String) :
    lid ∈ _collect_cells_for_layer t lid :=
  (collectAux_sub _ _ _ _ _ (collect_layer_spec t lid)).2 lid (List.mem_singleton_self lid)

theorem collect_layer_closed (t : Elem) (lid : Option String) :
    ∀ x ∈ _collect_cells_for_layer t lid, ∀ y ∈ colChildIds t x,
      y ∈ _collect_cells_for_layer t lid := by
  intro x hx y hy
  rcases collectAux_closed _ _ _ _ _ (collect_layer_spec t lid) x hx with h | h
  · cases h
  · exact h y hy

theorem collect_layer_origin (t : Elem) (lid : Option String) :
    ∀ x ∈ _collect_cells_for_layer t lid,
      x = lid ∨ ∃ z ∈ _collect_cells_for_layer t lid, x ∈ colChildIds t z := by
  intro x hx
  rcases collectAux_origin _ _ _ _ _ (collect_layer_spec t lid) x hx with h | h | h
  · cases h
  · exact Or.inl (List.mem_singleton.mp h)
  · exact Or.inr h

/-! ### Termination of the ancestor walk -/

theorem top_layer_aux_isSome (t : Elem) :
    ∀ (fuel : Nat) (cur : Elem) (seen : List String),
      ((truthyIds t).filter (fun i => decide (i ∉ seen))).length < fuel →
      (_top_layer_id_aux (_build_id_index t) fuel cur seen).isSome := by
  intro fuel
  induction fuel with
  | zero =>
    intro cur seen hm
    exact absurd hm (Nat.not_lt_zero _)
  | succ n ih =>
    intro cur seen hm
    rcases hp : getAttr cur "parent" with _ | pid
    · simp only [_top_layer_id_aux, hp]
      rfl
    · simp only [_top_layer_id_aux, hp]
      by_cases h1 : pid = ""
      · rw [if_pos h1]
        rfl
      · rw [if_neg h1]
        by_cases h2 : pid = "0"
        · rw [if_pos h2]
          rfl
        · rw [if_neg h2]
          by_cases h3 : pid ∈ seen
          · rw [if_pos h3]
            rfl
          · rw [if_neg h3]
            rcases hidx : _build_id_index t pid with _ | pe
            · rfl
            · apply ih
              have hmem : pid ∈ truthyIds t := by
                have hs := idx_some hidx
                exact mem_truthyIds_of_mem hs.1 hs.2
              have hlt := length_filter_lt (truthyIds t)
                (fun i => decide (i ∉ seen)) (fun i => decide (i ∉ pid :: seen)) pid
                (by
                  intro x hx
                  simp only [decide_eq_true_eq] at hx
                  simp only [decide_eq_true_eq]
                  intro hmem2
                  exact hx (List.mem_cons_of_mem _ hmem2))
                hmem
                (by
                  simp only [decide_eq_true_eq]
                  exact h3)
                (by
                  simp only [decide_eq_false_iff_not]
                  intro hcon
                  exact hcon (List.mem_cons_self _ _))
              omega

theorem top_layer_id_spec (t : Elem) (el : Elem) :
    ∃ r, _top_layer_id_aux (_build_id_index t) ((truthyIds t).length + 1) el [] = some r ∧
      _top_layer_id t el = r := by
  have hsome := top_layer_aux_isSome t ((truthyIds t).length + 1) el []
    (by
      have : ((truthyIds t).filter (fun i => decide (i ∉ ([] : List String)))).length ≤
          (truthyIds t).length := List.length_filter_le _ _
      omega)
  obtain ⟨r, hr⟩ := Option.isSome_iff_exists.mp hsome
  exact ⟨r, hr, by rw [_top_layer_id, hr]; rfl⟩

/-! ### The copy loops -/

theorem copy_layer_cells_cons_some (idx : String → Option Elem) (i : String)
    (rest : List (Option String)) (added : List String) :
    _copy_layer_cells idx (some i :: rest) added =
      if i ∈ added then _copy_layer_cells idx rest added
      else
        match idx i with
        | none => _copy_layer_cells idx rest added
        | some el =>
          ((el :: (_copy_layer_cells idx rest (added ++ [i])).1),
            (_copy_layer_cells idx rest (added ++ [i])).2) := rfl

theorem copy_layer_cells_elems (idx : String → Option Elem) :
    ∀ (ids : List (Option String)) (added : List String),
      ∀ e ∈ (_copy_layer_cells idx ids added).1, ∃ i, some i ∈ ids ∧ idx i = some e := by
  intro ids
  induction ids with
  | nil =>
    intro added e he
    cases he
  | cons oi rest ih =>
    intro added e he
    cases oi with
    | none =>
      obtain ⟨i, hi, hx⟩ := ih added e he
      exact ⟨i, List.mem_cons_of_mem _ hi, hx⟩
    | some i =>
      rw [copy_layer_cells_cons_some] at he
      by_cases hmem : i ∈ added
      · rw [if_pos hmem] at he
        obtain ⟨j, hj, hx⟩ := ih added e he
        exact ⟨j, List.mem_cons_of_mem _ hj, hx⟩
      · rw [if_neg hmem] at he
        rcases hidx : idx i with _ | el
        · rw [hidx] at he
          obtain ⟨j, hj, hx⟩ := ih added e he
          exact ⟨j, List.mem_cons_of_mem _ hj, hx⟩
        · rw [hidx] at he
          rcases List.mem_cons.mp he with rfl | he
          · exact ⟨i, List.mem_cons_self _ _, hidx⟩
          · obtain ⟨j, hj, hx⟩ := ih (added ++ [i]) e he
            exact ⟨j, List.mem_cons_of_mem _ hj, hx⟩

theorem copy_layer_cells_covers (idx : String → Option Elem) :
    ∀ (ids : List (Option String)) (added : List String) (i : String),
      some i ∈ ids → idx i ≠ none →
      i ∈ added ∨ ∃ e ∈ (_copy_layer_cells idx ids added).1, idx i = some e := by
  intro ids
  induction ids with
  | nil =>
    intro added i hi
    cases hi
  | cons oi rest ih =>
    intro added i hi hsome
    cases oi with
    | none =>
      rcases List.mem_cons.mp hi with hcon | hi
      · cases hcon
      · exact ih added i hi hsome
    | some j =>
      rw [copy_layer_cells_cons_some]
      by_cases hmem : j ∈ added
      · rw [if_pos hmem]
        rcases List.mem_cons.mp hi with hij | hi
        · exact Or.inl (by rw [Option.some.inj hij]; exact hmem)
        · exact ih added i hi hsome
      · rw [if_neg hmem]
        rcases hidx : idx j with _ | el
        · rcases List.mem_cons.mp hi with hij | hi
          · exact absurd (by rw [Option.some.inj hij]; exact hidx) hsome
          · exact ih added i hi hsome
        · rcases List.mem_cons.mp hi with hij | hi
          · have hij2 : i = j := Option.some.inj hij
            subst hij2
            exact Or.inr ⟨el, List.mem_cons_self _ _, hidx⟩
          · rcases ih (added ++ [j]) i hi hsome with hin | ⟨e, he, hx⟩
            · rcases List.mem_append.mp hin with hin | hin
              · exact Or.inl hin
              · have hij2 : i = j := List.mem_singleton.mp hin
                subst hij2
                exact Or.inr ⟨el, List.mem_cons_self _ _, hidx⟩
            · exact Or.inr ⟨e, List.mem_cons_of_mem _ he, hx⟩

theorem copy_layer_cells_added_mono (idx : String → Option Elem) :
    ∀ (ids : List (Option String)) (added : List String) (j : String),
      j ∈ added → j ∈ (_copy_layer_cells idx ids added).2 := by
  intro ids
  induction ids with
  | nil =>
    intro added j hj
    exact hj
  | cons oi rest ih =>
    intro added j hj
    cases oi with
    | none => exact ih added j hj
    | some i =>
      rw [copy_layer_cells_cons_some]
      by_cases hmem : i ∈ added
      · rw [if_pos hmem]
        exact ih added j hj
      · rw [if_neg hmem]
        rcases hidx : idx i with _ | el
        · exact ih added j hj
        · exact ih (added ++ [i]) j (List.mem_append_left _ hj)

theorem copy_layer_cells_added_mem (idx : String → Option Elem) :
    ∀ (ids : List (Option String)) (added : List String) (i : String),
      some i ∈ ids → idx i ≠ none → i ∈ (_copy_layer_cells idx ids added).2 := by
  intro ids
  induction ids with
  | nil =>
    intro added i hi
    cases hi
  | cons oi rest ih =>
    intro added i hi hsome
    cases oi with
    | none =>
      rcases List.mem_cons.mp hi with hcon | hi
      · cases hcon
      · exact ih added i hi hsome
    | some j =>
      rw [copy_layer_cells_cons_some]
      by_cases hmem : j ∈ added
      · rw [if_pos hmem]
        rcases List.mem_cons.mp hi with hij | hi
        · exact copy_layer_cells_added_mono idx rest added i
            (by rw [Option.some.inj hij]; exact hmem)
        · exact ih added i hi hsome
      · rw [if_neg hmem]
        rcases hidx : idx j with _ | el
        · rcases List.mem_cons.mp hi with hij | hi
          · exact absurd (by rw [Option.some.inj hij]; exact hidx) hsome
          · exact ih added i hi hsome
        · rcases List.mem_cons.mp hi with hij | hi
          · have hij2 : i = j := Option.some.inj hij
            subst hij2
            exact copy_layer_cells_added_mono idx rest (added ++ [i]) i
              (List.mem_append_right _ (List.mem_singleton_self i))
          · exact ih (added ++ [j]) i hi hsome

theorem copy_layer_cells_added_sub (idx : String → Option Elem) :
    ∀ (ids : List (Option String)) (added : List String),
      ∀ j ∈ (_copy_layer_cells idx ids added).2,
        j ∈ added ∨ ∃ e ∈ (_copy_layer_cells idx ids added).1, idx j = some e := by
  intro ids
  induction ids with
  | nil =>
    intro added j hj
    exact Or.inl hj
  | cons oi rest ih =>
    intro added j hj
    cases oi with
    | none => exact ih added j hj
    | some i =>
      rw [copy_layer_cells_cons_some] at hj ⊢
      by_cases hmem : i ∈ added
      · rw [if_pos hmem] at hj ⊢
        exact ih added j hj
      · rw [if_neg hmem] at hj ⊢
        rcases hidx : idx i with _ | el
        · rw [hidx] at hj
          exact ih added j hj
        · rw [hidx] at hj
          rcases ih (added ++ [i]) j hj with hin | ⟨e, he, hx⟩
          · rcases List.mem_append.mp hin with hin | hin
            · exact Or.inl hin
            · have hji : j = i := List.mem_singleton.mp hin
              subst hji
              exact Or.inr ⟨el, List.mem_cons_self _ _, hidx⟩
          · exact Or.inr ⟨e, List.mem_cons_of_mem _ he, hx⟩

theorem copy_cross_edges_cons_some (idx : String → Option Elem) (layerId : Option String)
    (i : String) (rest : List (Option String)) (added : List String) :
    _copy_cross_edges idx layerId (some i :: rest) added =
      if i ∈ added then _copy_cross_edges idx layerId rest added
      else
        match idx i with
        | none => _copy_cross_edges idx layerId rest added
        | some el =>
          (((if getAttr el "parent" ≠ layerId then _relocate_parent el layerId else el) ::
              (_copy_cross_edges idx layerId rest (added ++ [i])).1),
            (_copy_cross_edges idx layerId rest (added ++ [i])).2) := rfl

theorem copy_cross_edges_parent (idx : String → Option Elem) (layerId : Option String) :
    ∀ (ids : List (Option String)) (added : List String),
      ∀ e ∈ (_copy_cross_edges idx layerId ids added).1, getAttr e "parent" = layerId := by
  intro ids
  induction ids with
  | nil =>
    intro added e he
    cases he
  | cons oi rest ih =>
    intro added e he
    cases oi with
    | none => exact ih added e he
    | some i =>
      rw [copy_cross_edges_cons_some] at he
      by_cases hmem : i ∈ added
      · rw [if_pos hmem] at he
        exact ih added e he
      · rw [if_neg hmem] at he
        rcases hidx : idx i with _ | el
        · rw [hidx] at he
          exact ih added e he
        · rw [hidx] at he
          rcases List.mem_cons.mp he with rfl | he
          · by_cases hpar : getAttr el "parent" ≠ layerId
            · rw [if_pos hpar]
              exact relocate_parent_attr el layerId
            · rw [if_neg hpar]
              exact Decidable.not_not.mp hpar
          · exact ih (added ++ [i]) e he

theorem copy_cross_edges_covers (idx : String → Option Elem) (layerId : Option String) :
    ∀ (ids : List (Option String)) (added : List String) (i : String),
      some i ∈ ids → idx i ≠ none →
      i ∈ added ∨ ∃ el, idx i = some el ∧
        (el ∈ (_copy_cross_edges idx layerId ids added).1 ∨
         _relocate_parent el layerId ∈ (_copy_cross_edges idx layerId ids added).1) := by
  intro ids
  induction ids with
  | nil =>
    intro added i hi
    cases hi
  | cons oi rest ih =>
    intro added i hi hsome
    cases oi with
    | none =>
      rcases List.mem_cons.mp hi with hcon | hi
      · cases hcon
      · exact ih added i hi hsome
    | some j =>
      by_cases hmem : j ∈ added
      · have heq : _copy_cross_edges idx layerId (some j :: rest) added =
            _copy_cross_edges idx layerId rest added := by
          rw [copy_cross_edges_cons_some, if_pos hmem]
        rcases List.mem_cons.mp hi with hij | hi
        · exact Or.inl (by rw [Option.some.inj hij]; exact hmem)
        · rcases ih added i hi hsome with hin | ⟨el2, hx, hor⟩
          · exact Or.inl hin
          · refine Or.inr ⟨el2, hx, ?_⟩
            rw [heq]
            exact hor
      · rcases hidx : idx j with _ | el
        · have heq : _copy_cross_edges idx layerId (some j :: rest) added =
              _copy_cross_edges idx layerId rest added := by
            rw [copy_cross_edges_cons_some, if_neg hmem, hidx]
          rcases List.mem_cons.mp hi with hij | hi
          · exact absurd (by rw [Option.some.inj hij]; exact hidx) hsome
          · rcases ih added i hi hsome with hin | ⟨el2, hx, hor⟩
            · exact Or.inl hin
            · refine Or.inr ⟨el2, hx, ?_⟩
              rw [heq]
              exact hor
        · have h1 : (_copy_cross_edges idx layerId (some j :: rest) added).1 =
              (if getAttr el "parent" ≠ layerId then _relocate_parent el layerId else el) ::
                (_copy_cross_edges idx layerId rest (added ++ [j])).1 := by
            rw [copy_cross_edges_cons_some, if_neg hmem, hidx]
          rcases List.mem_cons.mp hi with hij | hi
          · have hij2 : i = j := Option.some.inj hij
            subst hij2
            refine Or.inr ⟨el, hidx, ?_⟩
            rw [h1]
            by_cases hpar : getAttr el "parent" ≠ layerId
            · rw [if_pos hpar]
              exact Or.inr (List.mem_cons_self _ _)
            · rw [if_neg hpar]
              exact Or.inl (List.mem_cons_self _ _)
          · rcases ih (added ++ [j]) i hi hsome with hin | ⟨el2, hx, hor⟩
            · rcases List.mem_append.mp hin with hin | hin
              · exact Or.inl hin
              · have hij2 : i = j := List.mem_singleton.mp hin
                subst hij2
                refine Or.inr ⟨el, hidx, ?_⟩
                rw [h1]
                by_cases hpar : getAttr el "parent" ≠ layerId
                · rw [if_pos hpar]
                  exact Or.inr (List.mem_cons_self _ _)
                · rw [if_neg hpar]
                  exact Or.inl (List.mem_cons_self _ _)
            · refine Or.inr ⟨el2, hx, ?_⟩
              rw [h1]
              rcases hor with hor | hor
              · exact Or.inl (List.mem_cons_of_mem _ hor)
              · exact Or.inr (List.mem_cons_of_mem _ hor)

theorem copy_cross_edges_elems (idx : String → Option Elem) (layerId : Option String) :
    ∀ (ids : List (Option String)) (added : List String),
      ∀ e ∈ (_copy_cross_edges idx layerId ids added).1,
        ∃ i el, some i ∈ ids ∧ idx i = some el ∧
          (e = el ∨ e = _relocate_parent el layerId) := by
  intro ids
  induction ids with
  | nil =>
    intro added e he
    cases he
  | cons oi rest ih =>
    intro added e he
    cases oi with
    | none =>
      obtain ⟨i, el, hi, hx, hor⟩ := ih added e he
      exact ⟨i, el, List.mem_cons_of_mem _ hi, hx, hor⟩
    | some i =>
      rw [copy_cross_edges_cons_some] at he
      by_cases hmem : i ∈ added
      · rw [if_pos hmem] at he
        obtain ⟨j, el, hj, hx, hor⟩ := ih added e he
        exact ⟨j, el, List.mem_cons_of_mem _ hj, hx, hor⟩
      · rw [if_neg hmem] at he
        rcases hidx : idx i with _ | el
        · rw [hidx] at he
          obtain ⟨j, el2, hj, hx, hor⟩ := ih added e he
          exact ⟨j, el2, List.mem_cons_of_mem _ hj, hx, hor⟩
        · rw [hidx] at he
          rcases List.mem_cons.mp he with rfl | he
          · refine ⟨i, el, List.mem_cons_self _ _, hidx, ?_⟩
            by_cases hpar : getAttr el "parent" ≠ layerId
            · rw [if_pos hpar]
              exact Or.inr rfl
            · rw [if_neg hpar]
              exact Or.inl rfl
          · obtain ⟨j, el2, hj, hx, hor⟩ := ih (added ++ [i]) e he
            exact ⟨j, el2, List.mem_cons_of_mem _ hj, hx, hor⟩

theorem copy_cross_edges_skip_all (idx : String → Option Elem) (layerId : Option String) :
    ∀ (ids : List (Option String)) (added : List String),
      (∀ i, some i ∈ ids → idx i = none ∨ i ∈ added) →
      _copy_cross_edges idx layerId ids added = ([], added) := by
  intro ids
  induction ids with
  | nil =>
    intro added _
    rfl
  | cons oi rest ih =>
    intro added hall
    cases oi with
    | none => exact ih added (fun i hi => hall i (List.mem_cons_of_mem _ hi))
    | some i =>
      rw [copy_cross_edges_cons_some]
      by_cases hmem : i ∈ added
      · rw [if_pos hmem]
        exact ih added (fun j hj => hall j (List.mem_cons_of_mem _ hj))
      · rw [if_neg hmem]
        rcases hall i (List.mem_cons_self _ _) with hn | hmem2
        · rw [hn]
          exact ih added (fun j hj => hall j (List.mem_cons_of_mem _ hj))
        · exact absurd hmem2 hmem

theorem copy_cells_new_cons_some (idx : String → Option Elem)
    (toCopy : List (Option String)) (layerId : Option String)
    (i : String) (rest : List (Option String)) (added : List String) :
    _copy_cells_new idx toCopy layerId (some i :: rest) added =
      if i ∈ added then _copy_cells_new idx toCopy layerId rest added
      else
        match idx i with
        | none => _copy_cells_new idx toCopy layerId rest added
        | some el =>
          if getAttr el "parent" ∈ toCopy ∨ some i = layerId then
            ((el :: (_copy_cells_new idx toCopy layerId rest (added ++ [i])).1),
              (_copy_cells_new idx toCopy layerId rest (added ++ [i])).2)
          else _copy_cells_new idx toCopy layerId rest added := rfl

theorem copy_new_eq_layer (idx : String → Option Elem) (toCopy : List (Option String))
    (layerId : Option String)
    (hcond : ∀ i el, some i ∈ toCopy → idx i = some el →
      (getAttr el "parent" ∈ toCopy ∨ some i = layerId)) :
    ∀ (ids : List (Option String)) (added : List String), (∀ x ∈ ids, x ∈ toCopy) →
      _copy_cells_new idx toCopy layerId ids added = _copy_layer_cells idx ids added := by
  intro ids
  induction ids with
  | nil =>
    intro added _
    rfl
  | cons oi rest ih =>
    intro added hids
    cases oi with
    | none => exact ih added (fun x hx => hids x (List.mem_cons_of_mem _ hx))
    | some i =>
      rw [copy_cells_new_cons_some, copy_layer_cells_cons_some]
      by_cases hmem : i ∈ added
      · rw [if_pos hmem, if_pos hmem]
        exact ih added (fun x hx => hids x (List.mem_cons_of_mem _ hx))
      · rw [if_neg hmem, if_neg hmem]
        rcases hidx : idx i with _ | el
        · exact ih added (fun x hx => hids x (List.mem_cons_of_mem _ hx))
        · show (if getAttr el "parent" ∈ toCopy ∨ some i = layerId then
              ((el :: (_copy_cells_new idx toCopy layerId rest (added ++ [i])).1),
                (_copy_cells_new idx toCopy layerId rest (added ++ [i])).2)
            else _copy_cells_new idx toCopy layerId rest added) =
            ((el :: (_copy_layer_cells idx rest (added ++ [i])).1),
              (_copy_layer_cells idx rest (added ++ [i])).2)
          rw [if_pos (hcond i el (hids (some i) (List.mem_cons_self _ _)) hidx)]
          rw [ih (added ++ [i]) (fun x hx => hids x (List.mem_cons_of_mem _ hx))]

/-! ### Appearance of identifiers in a cell list -/

theorem idAppears_of_mem_cells {cells : List Elem} {e : Elem} {i : String}
    (he : e ∈ cells) (hi : truthyId e = some i) : idAppearsIn cells i :=
  ⟨e, self_mem_iterLists he, hi⟩

theorem idAppears_append_left {l1 l2 : List Elem} {i : String}
    (h : idAppearsIn l1 i) : idAppearsIn (l1 ++ l2) i := by
  obtain ⟨e, he, hi⟩ := h
  exact ⟨e, by rw [iterLists_append]; exact List.mem_append_left _ he, hi⟩

theorem idAppears_append_right {l1 l2 : List Elem} {i : String}
    (h : idAppearsIn l2 i) : idAppearsIn (l1 ++ l2) i := by
  obtain ⟨e, he, hi⟩ := h
  exact ⟨e, by rw [iterLists_append]; exact List.mem_append_right _ he, hi⟩

theorem export_layer_cells_def (t layerElem : Elem) :
    _export_layer_cells t layerElem =
      (_add_base_cells t ++ [layerElem]) ++
        (_copy_layer_cells (_build_id_index t)
          (_collect_cells_for_layer t (getAttr layerElem "id"))
          ((iterLists (_add_base_cells t ++ [layerElem])).filterMap truthyId)).1 ++
        (_copy_cross_edges (_build_id_index t) (getAttr layerElem "id")
          (_cross_edge_ids t (_collect_cells_for_layer t (getAttr layerElem "id")))
          (_copy_layer_cells (_build_id_index t)
            (_collect_cells_for_layer t (getAttr layerElem "id"))
            ((iterLists (_add_base_cells t ++ [layerElem])).filterMap truthyId)).2).1 := rfl

/-- Any id of the layer closure that resolves in the id index appears in the
export of that layer. -/
theorem closure_id_appears (t layerElem : Elem) (i : String)
    (hin : some i ∈ _collect_cells_for_layer t (getAttr layerElem "id"))
    (hsome : _build_id_index t i ≠ none) :
    idAppearsIn (_export_layer_cells t layerElem) i := by
  rw [export_layer_cells_def]
  set idx := _build_id_index t with hidx
  set inL := _collect_cells_for_layer t (getAttr layerElem "id") with hinL
  set pre := _add_base_cells t ++ [layerElem] with hpre
  set added0 := (iterLists pre).filterMap truthyId with hadded0
  rcases copy_layer_cells_covers idx inL added0 i hin hsome with hmem | ⟨e, he, hx⟩
  · rw [hadded0, List.mem_filterMap] at hmem
    obtain ⟨e, he, hi⟩ := hmem
    exact idAppears_append_left (idAppears_append_left ⟨e, he, hi⟩)
  · have hti : truthyId e = some i := (idx_some hx).2
    exact idAppears_append_left (idAppears_append_right (idAppears_of_mem_cells he hti))

/-- Every id whose parent chain (resolved through the id index) reaches the
layer id is collected by the BFS closure. -/
theorem upreach_mem_collect (t : Elem) (L : String) (q : String)
    (h : UpReach (_build_id_index t) L q) :
    some q ∈ _collect_cells_for_layer t (some L) := by
  induction h with
  | base => exact collect_layer_start_mem t (some L)
  | step i p e hidx hpar hne _ ih =>
    have hs := idx_some hidx
    have hbc : e ∈ _build_children t p := (mem_build_children_iff t p e).mpr ⟨hs.1, hpar, hne⟩
    have hcol : some i ∈ colChildIds t (some p) :=
      (mem_colChildIds_iff t p (some i)).mpr ⟨e, hbc, i, hs.2, rfl⟩
    exact collect_layer_closed t (some L) (some p) ih (some i) hcol

/-- C1.  Closure completeness: every element of the input tree carrying a
nonempty id whose parent chain, resolved through the id index, terminates at
the identifier of the layer cell appears (at some depth) in that layer's
export. -/
theorem C1_closure_completeness (mxRoot layerElem e : Elem) (L i p : String)
    (_hlayer : layerElem ∈ _layers mxRoot)
    (hLid : getAttr layerElem "id" = some L)
    (he : e ∈ iterList mxRoot)
    (hid : truthyId e = some i)
    (hpar : getAttr e "parent" = some p) (hp : p ≠ "")
    (hreach : UpReach (_build_id_index mxRoot) L p) :
    idAppearsIn (_export_layer_cells mxRoot layerElem) i := by
  have hpmem : some p ∈ _collect_cells_for_layer mxRoot (some L) :=
    upreach_mem_collect mxRoot L p hreach
  have hbc : e ∈ _build_children mxRoot p := (mem_build_children_iff mxRoot p e).mpr ⟨he, hpar, hp⟩
  have hcol : some i ∈ colChildIds mxRoot (some p) :=
    (mem_colChildIds_iff mxRoot p (some i)).mpr ⟨e, hbc, i, hid, rfl⟩
  have himem : some i ∈ _collect_cells_for_layer mxRoot (some L) :=
    collect_layer_closed mxRoot (some L) (some p) hpmem (some i) hcol
  have hsome : _build_id_index mxRoot i ≠ none := by
    obtain ⟨el, hel⟩ := idx_isSome_of_mem he hid
    rw [hel]
    exact Option.some_ne_none el
  apply closure_id_appears
  · rw [hLid]
    exact himem
  · exact hsome

/-- Witness for C1 on the concrete two-layer document: node N1 sits inside
group G inside layer LA, and its id appears in the export of layer LA. -/
theorem C1_closure_completeness_witness :
    layerA ∈ _layers exRoot2 ∧ idAppearsIn (_export_layer_cells exRoot2 layerA) "N1" :=
  ⟨by decide,
    C1_closure_completeness exRoot2 layerA nodeN1 "LA" "N1" "G"
      (by decide) (by decide) (by decide) (by decide) (by decide) (by decide)
      (UpReach.step "G" "LA" groupG (by decide) (by decide) (by decide) UpReach.base)⟩

/-! ### Cross-layer edges -/

theorem mem_cross_direct (t : Elem) (inL : List (Option String)) (i : String) (el : Elem)
    (hidx : _build_id_index t i = some el)
    (htag : el.tag = "mxCell") (hedge : getAttr el "edge" = some "1")
    (hst : (∃ s, getAttr el "source" = some s ∧ s ≠ "" ∧ some s ∈ inL) ∨
           (∃ s, getAttr el "target" = some s ∧ s ≠ "" ∧ some s ∈ inL)) :
    i ∈ _cross_edge_direct t inL := by
  rw [_cross_edge_direct, List.mem_filter]
  refine ⟨mem_idxKeys_of_mem (idx_some hidx).1 (idx_some hidx).2, ?_⟩
  simp only [isCrossEdge, hidx, htag, hedge]
  simp only [Bool.and_eq_true, Bool.or_eq_true, beq_iff_eq]
  refine ⟨by simp, ?_⟩
  rcases hst with ⟨s, hsrc, hne, hmem⟩ | ⟨s, htgt, hne, hmem⟩
  · left
    simp only [hsrc, Bool.and_eq_true, Bool.not_eq_true', beq_eq_false_iff_ne,
      decide_eq_true_eq]
    exact ⟨hne, hmem⟩
  · right
    simp only [htgt, Bool.and_eq_true, Bool.not_eq_true', beq_eq_false_iff_ne,
      decide_eq_true_eq]
    exact ⟨hne, hmem⟩

theorem mem_cross_edge_ids_of_direct (t : Elem) (inL : List (Option String)) (i : String)
    (h : i ∈ _cross_edge_direct t inL) : some i ∈ _cross_edge_ids t inL := by
  rw [_cross_edge_ids]
  exact List.mem_append_left _ (List.mem_map_of_mem some h)

/-- Any id of the cross-edge set that resolves in the id index appears in the
export of that layer. -/
theorem cross_id_appears (t layerElem : Elem) (i : String)
    (hcross : some i ∈ _cross_edge_ids t (_collect_cells_for_layer t (getAttr layerElem "id")))
    (hsome : _build_id_index t i ≠ none) :
    idAppearsIn (_export_layer_cells t layerElem) i := by
  rw [export_layer_cells_def]
  set idx := _build_id_index t with hidx
  set inL := _collect_cells_for_layer t (getAttr layerElem "id") with hinL
  set pre := _add_base_cells t ++ [layerElem] with hpre
  set added0 := (iterLists pre).filterMap truthyId with hadded0
  set s1 := _copy_layer_cells idx inL added0 with hs1
  rcases copy_cross_edges_covers idx (getAttr layerElem "id")
      (_cross_edge_ids t inL) s1.2 i hcross hsome with hmem | ⟨el, hx, hor⟩
  · rcases copy_layer_cells_added_sub idx inL added0 i hmem with h0 | ⟨e, he, hx⟩
    · rw [hadded0, List.mem_filterMap] at h0
      obtain ⟨e, he, hi⟩ := h0
      exact idAppears_append_left (idAppears_append_left ⟨e, he, hi⟩)
    · exact idAppears_append_left (idAppears_append_right
        (idAppears_of_mem_cells he (idx_some hx).2))
  · rcases hor with hor | hor
    · exact idAppears_append_right (idAppears_of_mem_cells hor (idx_some hx).2)
    · refine idAppears_append_right (idAppears_of_mem_cells hor ?_)
      rw [truthyId_relocate]
      exact (idx_some hx).2

/-- C2.  Cross-layer edge symmetry: an edge cell whose source id lies in
layer A's closure and whose target id lies in layer B's closure appears in
both layers' exports, regardless of the edge's own parent attribute. -/
theorem C2_cross_layer_edge_symmetry (mxRoot lA lB el : Elem) (i s tg : String)
    (_hA : lA ∈ _layers mxRoot) (_hB : lB ∈ _layers mxRoot)
    (hidx : _build_id_index mxRoot i = some el)
    (htag : el.tag = "mxCell") (hedge : getAttr el "edge" = some "1")
    (hsrc : getAttr el "source" = some s) (hsne : s ≠ "")
    (htgt : getAttr el "target" = some tg) (htne : tg ≠ "")
    (hsA : some s ∈ _collect_cells_for_layer mxRoot (getAttr lA "id"))
    (htB : some tg ∈ _collect_cells_for_layer mxRoot (getAttr lB "id")) :
    idAppearsIn (_export_layer_cells mxRoot lA) i ∧
    idAppearsIn (_export_layer_cells mxRoot lB) i := by
  have hsome : _build_id_index mxRoot i ≠ none := by
    rw [hidx]
    exact Option.some_ne_none el
  constructor
  · apply cross_id_appears
    · apply mem_cross_edge_ids_of_direct
      exact mem_cross_direct mxRoot _ i el hidx htag hedge (Or.inl ⟨s, hsrc, hsne, hsA⟩)
    · exact hsome
  · apply cross_id_appears
    · apply mem_cross_edge_ids_of_direct
      exact mem_cross_direct mxRoot _ i el hidx htag hedge (Or.inr ⟨tg, htgt, htne, htB⟩)
    · exact hsome

/-- Witness for C2 on the concrete document: edge E from N1 (layer LA) to
N2 (layer LB) appears in both exports. -/
theorem C2_cross_layer_edge_symmetry_witness :
    idAppearsIn (_export_layer_cells exRoot2 layerA) "E" ∧
    idAppearsIn (_export_layer_cells exRoot2 layerB) "E" :=
  C2_cross_layer_edge_symmetry exRoot2 layerA layerB edgeE "E" "N1" "N2"
    (by decide) (by decide) (by decide) (by decide) (by decide) (by decide) (by decide)
    (by decide) (by decide) (by decide) (by decide)

/-- C3, counterexample.  The claim demands that EVERY included cross-layer
edge with original parent different from the layer id have its copy
reparented to the layer id.  On the concrete document, edge E (source N1
inside layer LA, target N2 in layer LB, parent the group G) is an included
cross-layer edge of layer LA with original parent G different from LA, yet
the only copy of E in LA's export keeps parent G: it was already copied
verbatim by the closure loop, and the cross-edge loop skips it. -/
theorem C3_reparenting_counterexample :
    some "E" ∈ _cross_edge_ids exRoot2
      (_collect_cells_for_layer exRoot2 (getAttr layerA "id")) ∧
    _build_id_index exRoot2 "E" = some edgeE ∧
    getAttr edgeE "parent" = some "G" ∧
    "G" ≠ "LA" ∧
    getAttr layerA "id" = some "LA" ∧
    (∀ e ∈ iterLists (_export_layer_cells exRoot2 layerA),
      truthyId e = some "E" → getAttr e "parent" = some "G") := by
  decide

/-- C3, amended.  Every element appended by the cross-edge loop (step 2)
carries parent equal to the layer id in its copy (rewritten when it
differed, unchanged when it already was the layer id); every element
appended by the closure loop (step 1) is exactly an element of the id
index, hence keeps its original parent attribute; and the export root is
the concatenation of scaffolding, layer cell, and the two loops.  The
source tree itself is never modified (the embedding is a pure function of
it). -/
theorem C3_reparenting_amended (mxRoot layerElem : Elem) :
    (∀ e ∈ (_copy_cross_edges (_build_id_index mxRoot) (getAttr layerElem "id")
        (_cross_edge_ids mxRoot (_collect_cells_for_layer mxRoot (getAttr layerElem "id")))
        (_copy_layer_cells (_build_id_index mxRoot)
          (_collect_cells_for_layer mxRoot (getAttr layerElem "id"))
          ((iterLists (_add_base_cells mxRoot ++ [layerElem])).filterMap truthyId)).2).1,
      getAttr e "parent" = getAttr layerElem "id") ∧
    (∀ e ∈ (_copy_layer_cells (_build_id_index mxRoot)
        (_collect_cells_for_layer mxRoot (getAttr layerElem "id"))
        ((iterLists (_add_base_cells mxRoot ++ [layerElem])).filterMap truthyId)).1,
      ∃ i, _build_id_index mxRoot i = some e) ∧
    _export_layer_cells mxRoot layerElem =
      (_add_base_cells mxRoot ++ [layerElem]) ++
        (_copy_layer_cells (_build_id_index mxRoot)
          (_collect_cells_for_layer mxRoot (getAttr layerElem "id"))
          ((iterLists (_add_base_cells mxRoot ++ [layerElem])).filterMap truthyId)).1 ++
        (_copy_cross_edges (_build_id_index mxRoot) (getAttr layerElem "id")
          (_cross_edge_ids mxRoot (_collect_cells_for_layer mxRoot (getAttr layerElem "id")))
          (_copy_layer_cells (_build_id_index mxRoot)
            (_collect_cells_for_layer mxRoot (getAttr layerElem "id"))
            ((iterLists (_add_base_cells mxRoot ++ [layerElem])).filterMap truthyId)).2).1 := by
  refine ⟨?_, ?_, export_layer_cells_def mxRoot layerElem⟩
  · intro e he
    exact copy_cross_edges_parent _ _ _ _ e he
  · intro e he
    obtain ⟨i, _, hx⟩ := copy_layer_cells_elems _ _ _ e he
    exact ⟨i, hx⟩

/-- Witness for the amended C3: in layer LB's export of the concrete
document, the cross-edge loop emits the copy of edge E with parent
rewritten to LB. -/
theorem C3_reparenting_amended_witness :
    getAttr (_relocate_parent edgeE (getAttr layerB "id")) "parent" = getAttr layerB "id" :=
  (C3_reparenting_amended exRoot2 layerB).1 (_relocate_parent edgeE (getAttr layerB "id"))
    (by decide)

/-- C4.  The claim (and the specification) state that no identifier appears
on more than one element of an output document.  The code violates this on
the most ordinary input: the default layer cell carries id "1" and parent
"0", so it is itself a layer; its export first deep-copies the scaffolding
cells "0" and "1" and then unconditionally appends the layer cell again,
producing two elements with id "1".  The dedup set `added` is only computed
afterwards and cannot prevent it. -/
theorem C4_no_duplication_code_bug :
    cell1 ∈ _layers exRoot1 ∧
    ((iterLists (_export_layer_cells exRoot1 cell1)).filter
      (fun e => truthyId e == some "1")).length = 2 := by
  decide

/-- C6.  Scaffolding presence: whenever the source root container has a
descendant with id "0" (resp. "1"), the first such element is copied into
every layer export; each of the two lookups is skipped exactly when the id
is absent. -/
theorem C6_scaffolding_presence (mxRoot layerElem : Elem) :
    (∀ e0, findDescId mxRoot "0" = some e0 → e0 ∈ _export_layer_cells mxRoot layerElem) ∧
    (∀ e1, findDescId mxRoot "1" = some e1 → e1 ∈ _export_layer_cells mxRoot layerElem) ∧
    (findDescId mxRoot "0" = none →
      _add_base_cells mxRoot = (findDescId mxRoot "1").toList) ∧
    (findDescId mxRoot "1" = none →
      _add_base_cells mxRoot = (findDescId mxRoot "0").toList ++ []) := by
  refine ⟨?_, ?_, ?_, ?_⟩
  · intro e0 h0
    rw [export_layer_cells_def]
    apply List.mem_append_left
    apply List.mem_append_left
    apply List.mem_append_left
    rw [_add_base_cells, h0]
    exact List.mem_append_left _ (List.mem_singleton_self e0)
  · intro e1 h1
    rw [export_layer_cells_def]
    apply List.mem_append_left
    apply List.mem_append_left
    apply List.mem_append_left
    rw [_add_base_cells, h1]
    exact List.mem_append_right _ (List.mem_singleton_self e1)
  · intro h0
    rw [_add_base_cells, h0]
    rfl
  · intro h1
    rw [_add_base_cells, h1]
    rfl

/-- Witness for C6: the scaffolding cell "0" of the concrete document is in
layer LA's export. -/
theorem C6_scaffolding_presence_witness :
    cell0 ∈ _export_layer_cells exRoot2 layerA :=
  (C6_scaffolding_presence exRoot2 layerA).1 cell0 (by decide)

/-- C7.  Cycle termination: on every input tree, also when the parent
attributes form reference cycles, the BFS layer closure returns within the
computed fuel bound (the loop result is `some`, never the fuel-exhaustion
marker), and the ancestor walk of _top_layer_id returns within fuel
`(number of ids) + 1`; a repeated visit is answered through the seen-set
and result-set guards rather than looping. -/
theorem C7_cycle_termination (t el : Elem) (layerId : Option String) :
    (∃ R, collectAux (colChildIds t) (_collect_fuel t [layerId]) [] [layerId] = some R ∧
      _collect_cells_for_layer t layerId = R) ∧
    (∃ r, _top_layer_id_aux (_build_id_index t) ((truthyIds t).length + 1) el [] = some r ∧
      _top_layer_id t el = r) := by
  constructor
  · exact ⟨_collect_cells_for_layer t layerId, collect_layer_spec t layerId, rfl⟩
  · exact top_layer_id_spec t el

/-! ### C8: the loader error conditions -/

theorem mxgraphmodel_error_iff (d : Elem) :
    (∃ e, _mxgraphmodel d = Except.error e) ↔
      (findChildTag d "mxGraphModel" = none ∧ findDescTag d "mxGraphModel" = none) := by
  rw [_mxgraphmodel]
  rcases h1 : findChildTag d "mxGraphModel" with _ | m
  · rcases h2 : findDescTag d "mxGraphModel" with _ | m2
    · simp
    · simp
  · simp

/-- C8.  export_layers errors exactly when the document lacks a diagram
child, the diagram lacks a graph model (both the direct-child lookup and
the deep fallback fail), the graph model lacks a root container, or the
root has no layer cell at all; otherwise it returns one output document
per layer. -/
theorem C8_structural_errors (root : Elem) :
    ((∃ msg, export_layers root = Except.error msg) ↔
      (findChildTag root "diagram" = none ∨
       (∃ d, findChildTag root "diagram" = some d ∧
         findChildTag d "mxGraphModel" = none ∧ findDescTag d "mxGraphModel" = none) ∨
       (∃ d m, findChildTag root "diagram" = some d ∧ _mxgraphmodel d = Except.ok m ∧
         findChildTag m "root" = none) ∨
       (∃ d m r, findChildTag root "diagram" = some d ∧ _mxgraphmodel d = Except.ok m ∧
         findChildTag m "root" = some r ∧ _layers r = []))) ∧
    (∀ d m r, findChildTag root "diagram" = some d → _mxgraphmodel d = Except.ok m →
      findChildTag m "root" = some r → _layers r ≠ [] →
      export_layers root = Except.ok ((_layers r).map (_export_layer root d m r)) ∧
      ((_layers r).map (_export_layer root d m r)).length = (_layers r).length) := by
  rcases hd : findChildTag root "diagram" with _ | d
  · have hval : export_layers root = Except.error "Kein diagram gefunden." := by
      simp only [export_layers, _first_diagram, hd]
    constructor
    · constructor
      · intro _
        exact Or.inl rfl
      · intro _
        exact ⟨_, hval⟩
    · intro d m r hd2 _ _ _
      cases hd2
  · rcases hmg : _mxgraphmodel d with e | m
    · obtain ⟨h1, h2⟩ := (mxgraphmodel_error_iff d).mp ⟨e, hmg⟩
      have hval : export_layers root = Except.error e := by
        simp only [export_layers, _first_diagram, hd, hmg]
      constructor
      · constructor
        · intro _
          exact Or.inr (Or.inl ⟨d, rfl, h1, h2⟩)
        · intro _
          exact ⟨e, hval⟩
      · intro d2 m r hd2 hm2 _ _
        cases hd2
        rw [hmg] at hm2
        cases hm2
    · rcases hr : findChildTag m "root" with _ | r
      · have hval : export_layers root =
            Except.error "Kein root unter mxGraphModel gefunden." := by
          simp only [export_layers, _first_diagram, hd, hmg, _mxroot, hr]
        constructor
        · constructor
          · intro _
            exact Or.inr (Or.inr (Or.inl ⟨d, m, rfl, hmg, hr⟩))
          · intro _
            exact ⟨_, hval⟩
        · intro d2 m2 r hd2 hm2 hr2 _
          cases hd2
          rw [hmg] at hm2
          cases hm2
          rw [hr] at hr2
          cases hr2
      · by_cases hl : _layers r = []
        · have hval : export_layers root =
              Except.error "Keine Layer gefunden (mxCell mit parent=0)." := by
            simp only [export_layers, _first_diagram, hd, hmg, _mxroot, hr]
            rw [if_pos hl]
          constructor
          · constructor
            · intro _
              exact Or.inr (Or.inr (Or.inr ⟨d, m, r, rfl, hmg, hr, hl⟩))
            · intro _
              exact ⟨_, hval⟩
          · intro d2 m2 r2 hd2 hm2 hr2 hne
            cases hd2
            rw [hmg] at hm2
            cases hm2
            rw [hr] at hr2
            cases hr2
            exact absurd hl hne
        · have hval : export_layers root =
              Except.ok ((_layers r).map (_export_layer root d m r)) := by
            simp only [export_layers, _first_diagram, hd, hmg, _mxroot, hr]
            rw [if_neg hl]
          constructor
          · constructor
            · rintro ⟨msg, hmsg⟩
              rw [hval] at hmsg
              cases hmsg
            · rintro (h | ⟨d2, hd2, h1, h2⟩ | ⟨d2, m2, hd2, hm2, hr2⟩ |
                ⟨d2, m2, r2, hd2, hm2, hr2, hl2⟩)
              · cases h
              · cases hd2
                obtain ⟨e, he⟩ := (mxgraphmodel_error_iff d).mpr ⟨h1, h2⟩
                rw [hmg] at he
                cases he
              · cases hd2
                rw [hmg] at hm2
                cases hm2
                rw [hr] at hr2
                cases hr2
              · cases hd2
                rw [hmg] at hm2
                cases hm2
                rw [hr] at hr2
                cases hr2
                exact absurd hl2 hl
          · intro d2 m2 r2 hd2 hm2 hr2 _
            cases hd2
            rw [hmg] at hm2
            cases hm2
            rw [hr] at hr2
            cases hr2
            exact ⟨hval, List.length_map _ _⟩

/-- Witness for C8: the minimal well-formed document loads successfully and
yields exactly one output document for its one layer. -/
theorem C8_structural_errors_witness :
    export_layers exDoc =
      Except.ok ((_layers exRoot1).map (_export_layer exDoc exDiagram1 exMgm1 exRoot1)) ∧
    ((_layers exRoot1).map (_export_layer exDoc exDiagram1 exMgm1 exRoot1)).length =
      (_layers exRoot1).length :=
  (C8_structural_errors exDoc).2 exDiagram1 exMgm1 exRoot1 rfl rfl rfl (by decide)

/-! ### sanitize_filename -/

theorem subBadRuns_chars : ∀ (b : Bool) (l : List Char), ∀ c ∈ subBadRuns b l,
    keepChar c = true ∨ c = '_' := by
  intro b l
  induction l generalizing b with
  | nil =>
    intro c hc
    cases hc
  | cons a l ih =>
    intro c hc
    simp only [subBadRuns] at hc
    by_cases hk : keepChar a
    · rw [if_pos hk] at hc
      rcases List.mem_cons.mp hc with rfl | hc
      · exact Or.inl hk
      · exact ih false c hc
    · rw [if_neg hk] at hc
      cases b with
      | true =>
        rw [if_pos rfl] at hc
        exact ih true c hc
      | false =>
        rw [if_neg (by decide)] at hc
        rcases List.mem_cons.mp hc with rfl | hc
        · exact Or.inr rfl
        · exact ih true c hc

theorem mem_stripUnderscore {l : List Char} {c : Char} (h : c ∈ stripUnderscore l) : c ∈ l := by
  rw [stripUnderscore, List.mem_reverse] at h
  have h2 : c ∈ (l.dropWhile (fun c => c == '_')).reverse :=
    (List.dropWhile_sublist _).mem h
  rw [List.mem_reverse] at h2
  exact (List.dropWhile_sublist _).mem h2

theorem dropWhile_head_not (p : Char → Bool) : ∀ (l : List Char) (a : Char),
    (l.dropWhile p).head? = some a → p a = false := by
  intro l
  induction l with
  | nil =>
    intro a h
    cases h
  | cons c l ih =>
    intro a h
    rw [List.dropWhile_cons] at h
    by_cases hp : p c = true
    · rw [if_pos hp] at h
      exact ih a h
    · rw [if_neg hp] at h
      have hca : c = a := Option.some.inj h
      subst hca
      exact Bool.not_eq_true _ ▸ Bool.of_not_eq_true hp

theorem stripUnderscore_getLast (l : List Char) (a : Char)
    (h : (stripUnderscore l).getLast? = some a) : (a == '_') = false := by
  rw [stripUnderscore, List.getLast?_reverse] at h
  exact dropWhile_head_not _ _ a h

theorem stripUnderscore_head (l : List Char) (a : Char)
    (h : (stripUnderscore l).head? = some a) : (a == '_') = false := by
  obtain ⟨t, ht⟩ := List.dropWhile_suffix
    (l := (l.dropWhile (fun c => c == '_')).reverse) (p := fun c => c == '_')
  rcases hres : stripUnderscore l with _ | ⟨a2, rs⟩
  · rw [hres] at h
    cases h
  · rw [hres] at h
    have ha2 : a2 = a := Option.some.inj h
    subst ha2
    have hy : l.dropWhile (fun c => c == '_') = (a2 :: rs) ++ t.reverse := by
      have := congrArg List.reverse ht
      rw [List.reverse_append, List.reverse_reverse] at this
      rw [← this]
      have hres2 := congrArg List.reverse hres
      rw [stripUnderscore] at hres2
      rw [List.reverse_reverse] at hres2
      rw [hres2, List.reverse_reverse]
    apply dropWhile_head_not (fun c => c == '_') l a2
    rw [hy]
    rfl

theorem sanitize_filename_chars (s : List Char) :
    ∀ c ∈ sanitize_filename s, keepChar c = true := by
  intro c hc
  rw [sanitize_filename] at hc
  have hmem := mem_stripUnderscore hc
  rcases subBadRuns_chars false _ c hmem with h | h
  · exact h
  · subst h
    decide

/-- C5, counterexample.  The claim says sanitize_filename always returns a
non-empty string; on the one-character ASCII label "!" it returns the empty
string (the lone bad character becomes "_", which strip then removes). -/
theorem C5_sanitize_counterexample :
    sanitize_filename ("!".toList) = [] ∧ (∀ c ∈ ("!".toList), c.toNat < 128) := by
  decide

/-- C5, amended.  For every ASCII label (the fragment on which the
embedding of the Python regex is exact): every character of the result is
in [A-Za-z0-9_.-]; the result has no leading and no trailing underscore;
maximal runs of characters outside the class are collapsed to single
underscores before trimming, so the result may be empty; and the empty
label falls back to Unnamed_Layer. -/
theorem C5_sanitize_amended (s : List Char) (_hascii : ∀ c ∈ s, c.toNat < 128) :
    (∀ c ∈ sanitize_filename s, (c.isAlphanum = true ∨ c = '_' ∨ c = '-' ∨ c = '.')) ∧
    (sanitize_filename s).head? ≠ some '_' ∧
    (sanitize_filename s).getLast? ≠ some '_' ∧
    sanitize_filename [] = "Unnamed_Layer".toList := by
  refine ⟨?_, ?_, ?_, by decide⟩
  · intro c hc
    have h := sanitize_filename_chars s c hc
    rw [keepChar] at h
    simp only [Bool.or_eq_true, beq_iff_eq] at h
    rcases h with ((h | h) | h) | h
    · exact Or.inl h
    · exact Or.inr (Or.inl h)
    · exact Or.inr (Or.inr (Or.inl h))
    · exact Or.inr (Or.inr (Or.inr h))
  · intro h
    rw [sanitize_filename] at h
    have := stripUnderscore_head _ _ h
    rw [beq_self_eq_true] at this
    cases this
  · intro h
    rw [sanitize_filename] at h
    have := stripUnderscore_getLast _ _ h
    rw [beq_self_eq_true] at this
    cases this

/-- Witness for the amended C5 on a concrete ASCII label. -/
theorem C5_sanitize_amended_witness :
    (sanitize_filename ("a b/c!".toList)).head? ≠ some '_' :=
  (C5_sanitize_amended ("a b/c!".toList) (by decide)).2.1

/-- C9, counterexample.  With two elements sharing id "1" (cell1 earlier,
dupCell later in document order), the id index maps "1" to dupCell, the
last one; yet the export of layer dupCell still copies the EARLIER element
cell1 into its output, because the scaffolding lookup takes the first
match in document order.  So the claim that only the last element can ever
be copied, and earlier duplicates never, is false. -/
theorem C9_last_wins_counterexample :
    _build_id_index exRoot3 "1" = some dupCell ∧
    cell1 ≠ dupCell ∧
    dupCell ∈ _layers exRoot3 ∧
    cell1 ∈ _export_layer_cells exRoot3 dupCell := by
  decide

/-- C9, amended.  The id index does map a duplicated id to the element
encountered last in document order (it equals the first match of the
reversed document walk), and every element placed by the two index-driven
copy loops is an image of the index (the cross copies possibly reparented);
but the scaffolding lookup (a first-match search) and the layer-cell append
can still place an earlier duplicate in an output, as the counterexample
shows. -/
theorem C9_last_wins_amended (t layerElem : Elem) (i : String) :
    _build_id_index t i = (iterList t).reverse.find? (fun e => truthyId e == some i) ∧
    (∀ e ∈ (_copy_layer_cells (_build_id_index t)
        (_collect_cells_for_layer t (getAttr layerElem "id"))
        ((iterLists (_add_base_cells t ++ [layerElem])).filterMap truthyId)).1,
      ∃ j, _build_id_index t j = some e) ∧
    (∀ e ∈ (_copy_cross_edges (_build_id_index t) (getAttr layerElem "id")
        (_cross_edge_ids t (_collect_cells_for_layer t (getAttr layerElem "id")))
        (_copy_layer_cells (_build_id_index t)
          (_collect_cells_for_layer t (getAttr layerElem "id"))
          ((iterLists (_add_base_cells t ++ [layerElem])).filterMap truthyId)).2).1,
      ∃ j el, _build_id_index t j = some el ∧
        (e = el ∨ e = _relocate_parent el (getAttr layerElem "id"))) := by
  refine ⟨idx_spec t i, ?_, ?_⟩
  · intro e he
    obtain ⟨j, _, hx⟩ := copy_layer_cells_elems _ _ _ e he
    exact ⟨j, hx⟩
  · intro e he
    obtain ⟨j, el, _, hx, hor⟩ := copy_cross_edges_elems _ _ _ _ e he
    exact ⟨j, el, hx, hor⟩

/-- Witness for the amended C9: last-seen-wins evaluated on the duplicated
document. -/
theorem C9_last_wins_amended_witness :
    _build_id_index exRoot3 "1" =
      (iterList exRoot3).reverse.find? (fun e => truthyId e == some "1") :=
  (C9_last_wins_amended exRoot3 dupCell "1").1

/-! ### C10: refinement between split_new and split_gpt -/

theorem filterMap_nodup_unique {α β : Type} : ∀ (l : List α) (f : α → Option β),
    (l.filterMap f).Nodup → ∀ c ∈ l, ∀ e ∈ l, ∀ i, f c = some i → f e = some i → c = e := by
  intro l f
  induction l with
  | nil =>
    intro _ c hc
    cases hc
  | cons a l ih =>
    intro hnd c hc e he i hci hei
    rw [List.filterMap_cons] at hnd
    have htail : (l.filterMap f).Nodup := by
      rcases hfa : f a with _ | j
      · rw [hfa] at hnd
        exact hnd
      · rw [hfa] at hnd
        exact (List.nodup_cons.mp hnd).2
    rcases List.mem_cons.mp hc with hceq | hcl
    · rcases List.mem_cons.mp he with heeq | hel
      · rw [hceq, heeq]
      · exfalso
        rw [hceq] at hci
        rw [hci] at hnd
        exact (List.nodup_cons.mp hnd).1 (List.mem_filterMap.mpr ⟨e, hel, hei⟩)
    · rcases List.mem_cons.mp he with heeq | hel
      · exfalso
        rw [heeq] at hei
        rw [hei] at hnd
        exact (List.nodup_cons.mp hnd).1 (List.mem_filterMap.mpr ⟨c, hcl, hci⟩)
      · exact ih htail c hcl e hel i hci hei

theorem nodup_truthy_unique (t : Elem) (hnodup : (truthyIds t).Nodup)
    {c e : Elem} {i : String} (hc : c ∈ iterList t) (hci : truthyId c = some i)
    (he : e ∈ iterList t) (hei : truthyId e = some i) : c = e :=
  filterMap_nodup_unique (iterList t) truthyId hnodup c hc e he i hci hei

theorem idx_empty_none (t : Elem) : _build_id_index t "" = none := by
  rw [idx_spec, List.find?_eq_none]
  intro e _ hbeq
  have hsome : truthyId e = some "" := eq_of_beq hbeq
  exact (truthyId_some hsome).2 rfl

theorem copy_cells_new_elems (idx : String → Option Elem) (toCopy : List (Option String))
    (layerId : Option String) :
    ∀ (ids : List (Option String)) (added : List String),
      ∀ e ∈ (_copy_cells_new idx toCopy layerId ids added).1,
        ∃ j, some j ∈ ids ∧ idx j = some e := by
  intro ids
  induction ids with
  | nil =>
    intro added e he
    cases he
  | cons oi rest ih =>
    intro added e he
    cases oi with
    | none =>
      obtain ⟨j, hj, hx⟩ := ih added e he
      exact ⟨j, List.mem_cons_of_mem _ hj, hx⟩
    | some i =>
      rw [copy_cells_new_cons_some] at he
      by_cases hmem : i ∈ added
      · rw [if_pos hmem] at he
        obtain ⟨j, hj, hx⟩ := ih added e he
        exact ⟨j, List.mem_cons_of_mem _ hj, hx⟩
      · rw [if_neg hmem] at he
        rcases hidx : idx i with _ | el
        · rw [hidx] at he
          obtain ⟨j, hj, hx⟩ := ih added e he
          exact ⟨j, List.mem_cons_of_mem _ hj, hx⟩
        · rw [hidx] at he
          have he2 : e ∈ (if getAttr el "parent" ∈ toCopy ∨ some i = layerId then
              ((el :: (_copy_cells_new idx toCopy layerId rest (added ++ [i])).1),
                (_copy_cells_new idx toCopy layerId rest (added ++ [i])).2)
            else _copy_cells_new idx toCopy layerId rest added).1 := he
          by_cases hcond : getAttr el "parent" ∈ toCopy ∨ some i = layerId
          · rw [if_pos hcond] at he2
            rcases List.mem_cons.mp he2 with rfl | he3
            · exact ⟨i, List.mem_cons_self _ _, hidx⟩
            · obtain ⟨j, hj, hx⟩ := ih (added ++ [i]) e he3
              exact ⟨j, List.mem_cons_of_mem _ hj, hx⟩
          · rw [if_neg hcond] at he2
            obtain ⟨j, hj, hx⟩ := ih added e he2
            exact ⟨j, List.mem_cons_of_mem _ hj, hx⟩

theorem bfs_eq_collect (t : Elem) (lid : Option String) :
    _bfs_collect_subtree t [lid] = _collect_cells_for_layer t lid := rfl

theorem base_cells_defs_eq (t : Elem) :
    _copy_required_base_cells t = _add_base_cells t := rfl

/-- Under a duplicate-free id space and with every collected cross edge
already inside the layer closure, the split_gpt export and the split_new
export of a layer produce the same root-container children. -/
theorem export_cells_eq_core (t lay : Elem)
    (hnodup : (truthyIds t).Nodup)
    (hcross : ∀ i ∈ _cross_edge_direct t (_collect_cells_for_layer t (getAttr lay "id")),
      some i ∈ _collect_cells_for_layer t (getAttr lay "id")) :
    _export_layer_cells t lay = _export_single_layer_cells t lay := by
  set idx := _build_id_index t with hidx0
  set lid := getAttr lay "id" with hlid0
  set R := _collect_cells_for_layer t lid with hR0
  set pre := _add_base_cells t ++ [lay] with hpre0
  set added0 := (iterLists pre).filterMap truthyId with hadded00
  have hcond : ∀ i el, some i ∈ R → idx i = some el →
      (getAttr el "parent" ∈ R ∨ some i = lid) := by
    intro i el hiR hidxi
    rcases collect_layer_origin t lid (some i) hiR with heq | ⟨z, hzR, hzc⟩
    · exact Or.inr heq
    · cases z with
      | none => cases hzc
      | some p =>
        rw [mem_colChildIds_iff] at hzc
        obtain ⟨c, hcb, i2, hi2, hieq⟩ := hzc
        have hii : i2 = i := (Option.some.inj hieq).symm
        subst hii
        obtain ⟨hcmem, hcpar, _⟩ := (mem_build_children_iff t p c).mp hcb
        have hel := idx_some hidxi
        have hce : c = el := nodup_truthy_unique t hnodup hcmem hi2 hel.1 hel.2
        left
        rw [← hce, hcpar]
        exact hzR
  have hloop : _copy_cells_new idx R lid R added0 = _copy_layer_cells idx R added0 :=
    copy_new_eq_layer idx R lid hcond R added0 (fun x hx => hx)
  have hskip : ∀ i, some i ∈ _cross_edge_ids t R →
      idx i = none ∨ i ∈ (_copy_layer_cells idx R added0).2 := by
    intro i hi
    rw [_cross_edge_ids] at hi
    rcases List.mem_append.mp hi with hdir | hlab
    · rw [List.mem_map] at hdir
      obtain ⟨j, hj, hjeq⟩ := hdir
      have hji : j = i := Option.some.inj hjeq
      subst hji
      right
      have hjR : some j ∈ R := hcross j hj
      have hjkeys : j ∈ idxKeys t := List.mem_of_mem_filter hj
      rw [idxKeys, List.mem_dedup, truthyIds, List.mem_filterMap] at hjkeys
      obtain ⟨e, he, hte⟩ := hjkeys
      obtain ⟨el, hel⟩ := idx_isSome_of_mem he hte
      exact copy_layer_cells_added_mem idx R added0 j hjR
        (by rw [hidx0, hel]; exact Option.some_ne_none el)
    · rw [List.mem_flatMap] at hlab
      obtain ⟨eid, heid, hmem2⟩ := hlab
      rw [List.mem_map] at hmem2
      obtain ⟨c, hcf, hceq⟩ := hmem2
      by_cases hie : i = ""
      · subst hie
        left
        exact idx_empty_none t
      · right
        have hct : truthyId c = some i := by
          rw [truthyId, hceq]
          show (if i = "" then none else some i) = some i
          rw [if_neg hie]
        have hcb : c ∈ _build_children t eid := List.mem_of_mem_filter hcf
        have heidR : some eid ∈ R := hcross eid heid
        have hcol : some i ∈ colChildIds t (some eid) :=
          (mem_colChildIds_iff t eid (some i)).mpr ⟨c, hcb, i, hct, rfl⟩
        have hiR : some i ∈ R := collect_layer_closed t lid (some eid) heidR (some i) hcol
        have hcmem := ((mem_build_children_iff t eid c).mp hcb).1
        obtain ⟨el, hel⟩ := idx_isSome_of_mem hcmem hct
        exact copy_layer_cells_added_mem idx R added0 i hiR
          (by rw [hidx0, hel]; exact Option.some_ne_none el)
  have hcrossnil := copy_cross_edges_skip_all idx lid (_cross_edge_ids t R)
    (_copy_layer_cells idx R added0).2 hskip
  show pre ++ (_copy_layer_cells idx R added0).1 ++
      (_copy_cross_edges idx lid (_cross_edge_ids t R) (_copy_layer_cells idx R added0).2).1 =
    pre ++ (_copy_cells_new idx R lid R added0).1
  rw [hcrossnil, hloop]
  simp

/-- C10, counterexample.  The document exRoot4 contains no edge at all, so
the claim's no-cross-layer-edge hypothesis holds, yet the two programs
disagree: id "X" is carried by cellX1 (inside layer L) and by the later
cellX2 (parent Q, outside the closure); the id index resolves "X" to
cellX2, which split_gpt copies into layer L's export while split_new skips
it because its parent is outside the closure set. -/
theorem C10_refinement_counterexample :
    (∀ lay ∈ _layers exRoot4, ∀ i ∈ _cross_edge_direct exRoot4
      (_collect_cells_for_layer exRoot4 (getAttr lay "id")),
      some i ∈ _collect_cells_for_layer exRoot4 (getAttr lay "id")) ∧
    layerL ∈ _layers exRoot4 ∧
    cellX2 ∈ _export_layer_cells exRoot4 layerL ∧
    cellX2 ∉ _export_single_layer_cells exRoot4 layerL := by
  decide

/-- C10, amended.  For inputs whose nonempty ids are duplicate-free and in
which every collected edge (source or target in some layer's closure)
already has its own id inside that closure, split_gpt's and split_new's
exports of every layer have identical root children; split_new's copy loop
only ever emits unmodified elements of the id index drawn from the layer
closure (it has no cross-edge or reparenting step); and on the
specification's example document with a cross-layer edge, split_gpt's
export of the target layer contains edge E while split_new's omits it. -/
theorem C10_refinement_amended (t : Elem)
    (hnodup : (truthyIds t).Nodup)
    (hcross : ∀ lay ∈ _layers t, ∀ i ∈ _cross_edge_direct t
      (_collect_cells_for_layer t (getAttr lay "id")),
      some i ∈ _collect_cells_for_layer t (getAttr lay "id")) :
    (∀ lay ∈ _layers t, _export_layer_cells t lay = _export_single_layer_cells t lay) ∧
    (∀ lay : Elem, ∀ e ∈ (_copy_cells_new (_build_id_index t)
        (_bfs_collect_subtree t [getAttr lay "id"]) (getAttr lay "id")
        (_bfs_collect_subtree t [getAttr lay "id"])
        ((iterLists (_copy_required_base_cells t ++ [lay])).filterMap truthyId)).1,
      ∃ j, some j ∈ _bfs_collect_subtree t [getAttr lay "id"] ∧
        _build_id_index t j = some e) ∧
    (idAppearsIn (_export_layer_cells exRoot2 layerB) "E" ∧
     ¬ idAppearsIn (_export_single_layer_cells exRoot2 layerB) "E") := by
  refine ⟨?_, ?_, by decide, by decide⟩
  · intro lay hlay
    exact export_cells_eq_core t lay hnodup (hcross lay hlay)
  · intro lay e he
    exact copy_cells_new_elems _ _ _ _ _ e he

/-- Witness for the amended C10 on the minimal document: both exports of
the single layer agree. -/
theorem C10_refinement_amended_witness :
    _export_layer_cells exRoot1 cell1 = _export_single_layer_cells exRoot1 cell1 :=
  (C10_refinement_amended exRoot1 (by decide) (by decide)).1 cell1 (by decide)
